import Mathlib

/-!
# konamicode: compiler and executor

A shallow embedding of `konamicode.go` (functions `compile` and `execute`) and
theorems about it.

Modelling conventions.

* `compile` reads its tokens through a `bufio.Scanner` with `bufio.ScanWords`.
  The model takes the list of tokens the scanner delivers, together with the
  value of `scanner.Err()` once the scanner stops.
* `strings.ToLower` maps every rune with `unicode.ToLower`. The model carries
  the mappings whose image is an ASCII letter (`A`..`Z`, U+0130 to `i`, U+212A
  to `k`) and leaves every other rune as it is: the lowered token is compared
  with ASCII identifiers only, so the comparison is not affected.
* `compile` returns the Go pair `(result, err)`; a `nil` slice is `none`.
* Go `int` values that can never become negative (`branches`, `program`, the
  entries of `stack`) are natural numbers; `data` is an integer.
* A tape cell is a natural number below 256; byte arithmetic is written with an
  explicit `% 256`.
* A Go run-time panic (index or slice bound out of range) is an outcome of its
  own.
-/

namespace Konamicode

/-! ## Instructions and identifiers -/

/-- The eight instructions (`InstructionUp` .. `InstructionSelect`), in the
spec's words: IncrementCell, DecrementCell, MoveLeft, MoveRight, ReadByte,
WriteByte, LoopStart, LoopEnd. -/
inductive Instruction where
  | Up
  | Down
  | Left
  | Right
  | A
  | B
  | Start
  | Select
  deriving DecidableEq, Repr

/-- The identifier constants. -/
def IdentifierUp : String := "up"
def IdentifierDown : String := "down"
def IdentifierLeft : String := "left"
def IdentifierRight : String := "right"
def IdentifierA : String := "a"
def IdentifierB : String := "b"
def IdentifierStart : String := "start"
def IdentifierSelect : String := "select"

/-- Lowercasing of one rune, as far as the image is an ASCII letter: `A`..`Z`
move to `a`..`z`, U+0130 (304) to `i` (105) and U+212A (8490) to `k` (107). -/
def toLowerChar (c : Char) : Char :=
  if 65 ≤ c.toNat ∧ c.toNat ≤ 90 then Char.ofNat (c.toNat + 32)
  else if c.toNat = 304 then Char.ofNat 105
  else if c.toNat = 8490 then Char.ofNat 107
  else c

/-- The model of `strings.ToLower`. -/
def toLower (s : String) : String :=
  String.mk (s.data.map toLowerChar)

/-! ## The compiler -/

/-- The errors `compile` returns. -/
inductive CompileError where
  /-- The message is `Unexpected ']'`. -/
  | unexpectedClose
  /-- The message is `Invalid identifier '<ident>'`. -/
  | invalidIdentifier (ident : String)
  /-- The message is `Missing closing ']' for <branches> branch(es)`. -/
  | missingClose (branches : Nat)
  /-- The error reported by `scanner.Err()`. -/
  | scanner (msg : String)
  deriving DecidableEq, Repr

/-- The pair `(result, err)` returned by `compile`; `none` is `nil`. -/
abbrev CompileResult := Option (List Instruction) × Option CompileError

/-- The body of `compile` from the `for scanner.Scan()` loop on: the tokens
still to come, the `result` built so far and the `branches` counter. When the
tokens are exhausted the checks after the loop run. -/
def compileLoop (scanErr : Option String) :
    List String → List Instruction → Nat → CompileResult
  | [], result, branches =>
    match scanErr with
    | some e => (none, some (CompileError.scanner e))
    | none =>
      if branches > 0 then (none, some (CompileError.missingClose branches))
      else (some result, none)
  | ident :: rest, result, branches =>
    if toLower ident = IdentifierUp then
      compileLoop scanErr rest (result ++ [Instruction.Up]) branches
    else if toLower ident = IdentifierDown then
      compileLoop scanErr rest (result ++ [Instruction.Down]) branches
    else if toLower ident = IdentifierLeft then
      compileLoop scanErr rest (result ++ [Instruction.Left]) branches
    else if toLower ident = IdentifierRight then
      compileLoop scanErr rest (result ++ [Instruction.Right]) branches
    else if toLower ident = IdentifierA then
      compileLoop scanErr rest (result ++ [Instruction.A]) branches
    else if toLower ident = IdentifierB then
      compileLoop scanErr rest (result ++ [Instruction.B]) branches
    else if toLower ident = IdentifierStart then
      compileLoop scanErr rest (result ++ [Instruction.Start]) (branches + 1)
    else if toLower ident = IdentifierSelect then
      if branches = 0 then (none, some CompileError.unexpectedClose)
      else compileLoop scanErr rest (result ++ [Instruction.Select]) (branches - 1)
    else (none, some (CompileError.invalidIdentifier ident))

/-- The function `compile`: `tokens` are the words the scanner delivers and
`scanErr` is what `scanner.Err()` returns after the last of them. -/
def compile (tokens : List String) (scanErr : Option String) : CompileResult :=
  compileLoop scanErr tokens [] 0

/-! ## The executor -/

/-- The length of `memory`. -/
def memLen : Nat := 30000

/-- What one call of `stdin.ReadByte()` yields while the stream is not
exhausted: a byte, or an error other than `io.EOF`. An exhausted stream (the
empty list) yields `io.EOF`. -/
inductive ReadEvent where
  | byte (c : Nat)
  | fail (msg : String)
  deriving DecidableEq, Repr

/-- The variables of `execute`, with the standard input still to be read and
the characters printed so far. The top of `stack` is the head of the list. -/
structure State where
  memory : Nat → Nat
  data : Int
  program : Nat
  stack : List Nat
  stdin : List ReadEvent
  stdout : List Char

/-- The errors `execute` returns. -/
inductive ExecError where
  /-- The error of `stdin.ReadByte()`, returned as it is. -/
  | read (msg : String)
  /-- The message is `Program counter (<program>) out of bounds!`. -/
  | programOutOfBounds (program : Nat)
  /-- The message is `Data pointer (<data>) out of bounds!`. -/
  | dataOutOfBounds (data : Int)
  deriving DecidableEq, Repr

/-- How a run of `execute` ends, with the variables at that moment. -/
inductive Outcome where
  /-- The loop condition failed and `execute` returned `nil`. -/
  | success (s : State)
  /-- The function `execute` returned an error. -/
  | failure (e : ExecError) (s : State)
  /-- A Go run-time panic: an index or a slice bound out of range. The
  variables are those of the iteration that panics, as far as it got. -/
  | goPanic (s : State)
  /-- The model ran out of fuel (the run had not ended yet). -/
  | outOfFuel (s : State)

/-- One iteration of the `for program < len(instructions)` loop either goes on
to the next iteration or ends the run. -/
inductive Step where
  | next (s : State)
  | halt (o : Outcome)

/-- The state `execute` starts from: `memory` all zero, `data` and `program`
zero, an empty `stack`, nothing printed. -/
def initState (input : List ReadEvent) : State :=
  { memory := fun _ => 0, data := 0, program := 0, stack := [],
    stdin := input, stdout := [] }

/-- The index `data` is inside `memory`. -/
def inMemory (data : Int) : Prop := 0 ≤ data ∧ data < memLen

instance (data : Int) : Decidable (inMemory data) := by
  unfold inMemory; infer_instance

/-- The assignment `memory[i] = v`. -/
def setCell (memory : Nat → Nat) (i : Nat) (v : Nat) : Nat → Nat :=
  fun j => if j = i then v else memory j

/-- The cell `memory[data]`. -/
def cell (s : State) : Nat := s.memory s.data.toNat

/-- The inner loop `for instructions[program] != InstructionSelect { program++ }`
over the instructions from `program` on: the value of `program` when the loop
stops, or `none` when the index runs past the end (a run-time panic). -/
def scanSelect : List Instruction → Nat → Option Nat
  | [], _ => none
  | i :: rest, program =>
    if i = Instruction.Select then some program else scanSelect rest (program + 1)

/-- The two checks after the `switch`, then `program++`. -/
def check (instructions : List Instruction) (s : State) : Step :=
  if s.program ≥ instructions.length then
    Step.halt (Outcome.failure (ExecError.programOutOfBounds s.program) s)
  else if s.data < 0 ∨ s.data ≥ memLen then
    Step.halt (Outcome.failure (ExecError.dataOutOfBounds s.data) s)
  else Step.next { s with program := s.program + 1 }

/-- The `switch` of one loop iteration on instruction `i`, followed by the
checks. -/
def exec (instructions : List Instruction) (s : State) (i : Instruction) : Step :=
  match i with
  | Instruction.Up =>
    if inMemory s.data then
      check instructions { s with memory := setCell s.memory s.data.toNat ((cell s + 1) % 256) }
    else Step.halt (Outcome.goPanic s)
  | Instruction.Down =>
    if inMemory s.data then
      check instructions { s with memory := setCell s.memory s.data.toNat ((cell s + 255) % 256) }
    else Step.halt (Outcome.goPanic s)
  | Instruction.Left => check instructions { s with data := s.data - 1 }
  | Instruction.Right => check instructions { s with data := s.data + 1 }
  | Instruction.A =>
    match s.stdin with
    | ReadEvent.fail msg :: _ => Step.halt (Outcome.failure (ExecError.read msg) s)
    | [] => check instructions s
    | ReadEvent.byte c :: rest =>
      if inMemory s.data then
        check instructions
          { s with memory := setCell s.memory s.data.toNat (c % 256), stdin := rest }
      else Step.halt (Outcome.goPanic { s with stdin := rest })
  | Instruction.B =>
    if inMemory s.data then
      check instructions { s with stdout := s.stdout ++ [Char.ofNat (cell s)] }
    else Step.halt (Outcome.goPanic s)
  | Instruction.Start =>
    if inMemory s.data then
      if cell s = 0 then
        match scanSelect (instructions.drop s.program) s.program with
        | none => Step.halt (Outcome.goPanic s)
        | some program =>
          match s.stack with
          | [] => Step.halt (Outcome.goPanic { s with program := program })
          | _ :: stack => check instructions { s with program := program, stack := stack }
      else check instructions { s with stack := s.program :: s.stack }
    else Step.halt (Outcome.goPanic s)
  | Instruction.Select =>
    if inMemory s.data then
      if cell s ≠ 0 then
        match s.stack with
        | [] => Step.halt (Outcome.goPanic s)
        | top :: _ => check instructions { s with program := top }
      else
        match s.stack with
        | [] => Step.halt (Outcome.goPanic s)
        | _ :: stack => check instructions { s with stack := stack }
    else Step.halt (Outcome.goPanic s)

/-- One iteration of the loop of `execute`, loop condition included. -/
def step (instructions : List Instruction) (s : State) : Step :=
  match instructions[s.program]? with
  | none => Step.halt (Outcome.success s)
  | some i => exec instructions s i

/-- The loop of `execute`, for at most `fuel` iterations. -/
def run (instructions : List Instruction) : Nat → State → Outcome
  | 0, s => Outcome.outOfFuel s
  | fuel + 1, s =>
    match step instructions s with
    | Step.halt o => o
    | Step.next s' => run instructions fuel s'

/-- The function `execute` on standard input `input`, for at most `fuel` loop
iterations. -/
def execute (instructions : List Instruction) (input : List ReadEvent) (fuel : Nat) : Outcome :=
  run instructions fuel (initState input)

/-- The values of `program` at which an iteration of the loop of `execute`
starts, in order, over at most `fuel` iterations. -/
def trace (instructions : List Instruction) : Nat → State → List Nat
  | 0, _ => []
  | fuel + 1, s =>
    match instructions[s.program]? with
    | none => []
    | some _ =>
      s.program ::
        (match step instructions s with
         | Step.halt _ => []
         | Step.next s' => trace instructions fuel s')

/-! ## Vocabulary of the specification -/

/-- The identifier table of the specification, on lowercased identifiers. -/
def table (lower : String) : Option Instruction :=
  if lower = "up" then some Instruction.Up
  else if lower = "down" then some Instruction.Down
  else if lower = "left" then some Instruction.Left
  else if lower = "right" then some Instruction.Right
  else if lower = "a" then some Instruction.A
  else if lower = "b" then some Instruction.B
  else if lower = "start" then some Instruction.Start
  else if lower = "select" then some Instruction.Select
  else none

/-- A token that is, after lowercasing, one of the eight identifiers. -/
def Recognized (t : String) : Prop := (table (toLower t)).isSome = true

instance (t : String) : Decidable (Recognized t) := by
  unfold Recognized; infer_instance

/-- The number of `start` tokens. -/
def startCount (tokens : List String) : Nat :=
  tokens.countP (fun t => decide (toLower t = "start"))

/-- The number of `select` tokens. -/
def selectCount (tokens : List String) : Nat :=
  tokens.countP (fun t => decide (toLower t = "select"))

/-- The number of `LoopStart` instructions. -/
def loopStarts (prog : List Instruction) : Nat := prog.count Instruction.Start

/-- The number of `LoopEnd` instructions. -/
def loopEnds (prog : List Instruction) : Nat := prog.count Instruction.Select

/-- A balanced program: no initial segment has more `LoopEnd` than `LoopStart`,
and the whole program has as many of the one as of the other. -/
def Balanced (prog : List Instruction) : Prop :=
  (∀ k, loopEnds (prog.take k) ≤ loopStarts (prog.take k)) ∧ loopEnds prog = loopStarts prog

/-- The model of `unicode.ToUpper`, as far as the image is an ASCII letter:
`a`..`z` move to `A`..`Z`, U+017F (383, long s) to `S` (83) and U+0131 (305,
dotless i) to `I` (73). -/
def toUpperChar (c : Char) : Char :=
  if 97 ≤ c.toNat ∧ c.toNat ≤ 122 then Char.ofNat (c.toNat - 32)
  else if c.toNat = 383 then Char.ofNat 83
  else if c.toNat = 305 then Char.ofNat 73
  else c

/-- A rune one of whose case forms is an ASCII letter: `A`..`Z`, `a`..`z`,
U+0130, U+0131, U+017F and U+212A. The case forms of every other rune are
again runes outside this set. -/
def AsciiCased (c : Char) : Prop :=
  (65 ≤ c.toNat ∧ c.toNat ≤ 90) ∨ (97 ≤ c.toNat ∧ c.toNat ≤ 122) ∨ c.toNat = 304 ∨
    c.toNat = 305 ∨ c.toNat = 383 ∨ c.toNat = 8490

instance (c : Char) : Decidable (AsciiCased c) := by
  unfold AsciiCased; infer_instance

/-- A lowercase ASCII letter. -/
def LowerAscii (c : Char) : Prop := 97 ≤ c.toNat ∧ c.toNat ≤ 122

instance (c : Char) : Decidable (LowerAscii c) := by
  unfold LowerAscii; infer_instance

/-- The rune `d` is the rune `c` with its case changed or not: `c` itself, `c`
in upper case, `c` in lower case, or, for a rune with no ASCII case form, any
rune with no ASCII case form (which its case forms are). -/
def CaseChangeChar (c d : Char) : Prop :=
  d = c ∨ d = toUpperChar c ∨ d = toLowerChar c ∨ (¬ AsciiCased c ∧ ¬ AsciiCased d)

instance (c d : Char) : Decidable (CaseChangeChar c d) := by
  unfold CaseChangeChar; infer_instance

/-- The token `u` is the token `t` with the case of some letters changed. -/
def CaseChange (t u : String) : Prop := List.Forall₂ CaseChangeChar t.data u.data

/-- As `CaseChangeChar`, but U+017F (long s) and U+0131 (dotless i) are not put
in upper case. -/
def CaseVariantChar (c d : Char) : Prop :=
  d = c ∨ (d = toUpperChar c ∧ c.toNat ≠ 383 ∧ c.toNat ≠ 305) ∨ d = toLowerChar c ∨
    (¬ AsciiCased c ∧ ¬ AsciiCased d)

instance (c d : Char) : Decidable (CaseVariantChar c d) := by
  unfold CaseVariantChar; infer_instance

/-- The token `u` is the token `t` with the case of some letters changed, no
long s and no dotless i being put in upper case. -/
def CaseVariant (t u : String) : Prop := List.Forall₂ CaseVariantChar t.data u.data

/-- The program of C9: `n` times `IncrementCell`, then the loop
`LoopStart DecrementCell LoopEnd`. -/
def countdown (n : Nat) : List Instruction :=
  List.replicate n Instruction.Up ++ [Instruction.Start, Instruction.Down, Instruction.Select]

/-! ## Definitions used in the proofs -/

/-- The checks after the loop of `compile`, when the scanner reports no error. -/
def afterLoop (result : List Instruction) (branches : Nat) : CompileResult :=
  if branches > 0 then (none, some (CompileError.missingClose branches)) else (some result, none)

/-- The invariant of the loop of `compile`: `result` has no initial segment
with more `LoopEnd` than `LoopStart`, and `branches` is the surplus of
`LoopStart`. -/
def LoopInv (result : List Instruction) (branches : Nat) : Prop :=
  (∀ k, loopEnds (result.take k) ≤ loopStarts (result.take k)) ∧
    loopStarts result = loopEnds result + branches

/-- From `s` the loop of `execute` reaches `s'` in exactly `k` iterations, which
start at the values `pcs` of `program`. -/
def Reaches (ins : List Instruction) (k : Nat) (s s' : State) (pcs : List Nat) : Prop :=
  (∀ fuel, run ins (k + fuel) s = run ins fuel s') ∧
    (∀ fuel, trace ins (k + fuel) s = pcs ++ trace ins fuel s')

/-- The values of `program` over `c` rounds of a two-instruction loop body that
starts at `b + 1`. -/
def loopTrace (b : Nat) : Nat → List Nat
  | 0 => []
  | c + 1 => (b + 1) :: (b + 2) :: loopTrace b c

/-- The variables after `k` iterations of the loop of `execute` from `s`, when
the run has not ended within them. -/
def stateAfter (instructions : List Instruction) : Nat → State → Option State
  | 0, s => some s
  | k + 1, s =>
    match step instructions s with
    | Step.halt _ => none
    | Step.next s' => stateAfter instructions k s'

/-- The bytes that `fmt.Printf("%c", ...)` writes for the rune `c`: its UTF-8
encoding. -/
def utf8Bytes (c : Char) : List Nat :=
  if c.toNat < 128 then [c.toNat]
  else if c.toNat < 2048 then [192 + c.toNat / 64, 128 + c.toNat % 64]
  else if c.toNat < 65536 then
    [224 + c.toNat / 4096, 128 + c.toNat / 64 % 64, 128 + c.toNat % 64]
  else
    [240 + c.toNat / 262144, 128 + c.toNat / 4096 % 64, 128 + c.toNat / 64 % 64,
      128 + c.toNat % 64]

/-- The bytes written to standard output for the runes `out`. -/
def outputBytes (out : List Char) : List Nat :=
  out.flatMap utf8Bytes

/-- The effect of the instruction `i` at index `idx` on the list of open loops
(innermost first): a `LoopStart` opens a loop, a `LoopEnd` closes the innermost
one. -/
def openStep (st : List Nat) (i : Instruction) (idx : Nat) : List Nat :=
  match i with
  | Instruction.Start => idx :: st
  | Instruction.Select => st.tail
  | _ => st

/-- The open loops after the instructions `l`, which start at index `idx`. -/
def openLoops : List Instruction → Nat → List Nat → List Nat
  | [], _, st => st
  | i :: rest, idx, st => openLoops rest (idx + 1) (openStep st i idx)

/-- The indices of the `LoopStart` instructions that enclose the instruction at
index `p` of `prog`, innermost first: the loops opened and not yet closed by the
instructions before `p`. The innermost one matches the `LoopEnd` at `p`, when
there is one. -/
def enclosing (prog : List Instruction) (p : Nat) : List Nat :=
  openLoops (prog.take p) 0 []

/-- In the first `k` iterations of the run from `s₀` no `LoopStart` is executed
on a zero cell. -/
def NoSkip (ins : List Instruction) (k : Nat) (s₀ : State) : Prop :=
  ∀ j s, j < k → stateAfter ins j s₀ = some s →
    ¬ (ins[s.program]? = some Instruction.Start ∧ cell s = 0)

/-- Every entry of the control stack is the index of a `LoopStart`. -/
def StackOk (ins : List Instruction) (stack : List Nat) : Prop :=
  ∀ x ∈ stack, ins[x]? = some Instruction.Start

/-- Every entry of the control stack is the index of a `LoopStart` before which
at least as many loops are open as there are entries below it. -/
def StackDepth (prog : List Instruction) : List Nat → Prop
  | [] => True
  | t :: rest =>
    prog[t]? = some Instruction.Start ∧
      rest.length + loopEnds (prog.take t) ≤ loopStarts (prog.take t) ∧ StackDepth prog rest

/-! ## Lemmas on the compiler -/

theorem compileLoop_cons (e : Option String) (ident : String) (rest : List String)
    (result : List Instruction) (br : Nat) :
    compileLoop e (ident :: rest) result br =
      match table (toLower ident) with
      | none => (none, some (CompileError.invalidIdentifier ident))
      | some Instruction.Start => compileLoop e rest (result ++ [Instruction.Start]) (br + 1)
      | some Instruction.Select =>
        if br = 0 then (none, some CompileError.unexpectedClose)
        else compileLoop e rest (result ++ [Instruction.Select]) (br - 1)
      | some i => compileLoop e rest (result ++ [i]) br := by
  simp only [compileLoop, table, IdentifierUp, IdentifierDown, IdentifierLeft, IdentifierRight,
    IdentifierA, IdentifierB, IdentifierStart, IdentifierSelect]
  split_ifs <;> rfl

theorem table_start_iff (l : String) : table l = some Instruction.Start ↔ l = "start" := by
  unfold table
  constructor
  · intro h
    split_ifs at h <;> simp_all
  · intro h
    subst h
    decide

theorem table_select_iff (l : String) : table l = some Instruction.Select ↔ l = "select" := by
  unfold table
  constructor
  · intro h
    split_ifs at h <;> simp_all
  · intro h
    subst h
    decide

theorem startCount_cons (t : String) (ts : List String) :
    startCount (t :: ts) = startCount ts + if toLower t = "start" then 1 else 0 := by
  simp [startCount, List.countP_cons]

theorem selectCount_cons (t : String) (ts : List String) :
    selectCount (t :: ts) = selectCount ts + if toLower t = "select" then 1 else 0 := by
  simp [selectCount, List.countP_cons]

theorem lower_start_iff {t : String} {i : Instruction} (h : table (toLower t) = some i) :
    toLower t = "start" ↔ i = Instruction.Start := by
  rw [← table_start_iff, h]; simp

theorem lower_select_iff {t : String} {i : Instruction} (h : table (toLower t) = some i) :
    toLower t = "select" ↔ i = Instruction.Select := by
  rw [← table_select_iff, h]; simp

theorem recognized_iff (t : String) : Recognized t ↔ ∃ i, table (toLower t) = some i := by
  unfold Recognized
  exact Option.isSome_iff_exists

theorem compileLoop_nested (toks : List String) :
    ∀ (result : List Instruction) (br : Nat), (∀ t ∈ toks, Recognized t) →
      (∀ k, selectCount (toks.take k) ≤ br + startCount (toks.take k)) →
      compileLoop none toks result br =
        afterLoop (result ++ toks.filterMap (fun t => table (toLower t)))
          (br + startCount toks - selectCount toks) := by
  induction toks with
  | nil =>
    intro result br _ _
    simp [compileLoop, afterLoop, startCount, selectCount]
  | cons t ts ih =>
    intro result br hrec hk
    obtain ⟨i, hi⟩ := (recognized_iff t).1 (hrec t (List.mem_cons_self _ _))
    have hrec' : ∀ u ∈ ts, Recognized u := fun u hu => hrec u (List.mem_cons_of_mem _ hu)
    have hs := lower_start_iff hi
    have he := lower_select_iff hi
    have hk' : ∀ k, selectCount (ts.take k) + (if toLower t = "select" then 1 else 0) ≤
        br + (startCount (ts.take k) + if toLower t = "start" then 1 else 0) := by
      intro k
      have := hk (k + 1)
      rwa [List.take_succ_cons, startCount_cons, selectCount_cons] at this
    rw [compileLoop_cons, hi, startCount_cons, selectCount_cons, List.filterMap_cons, hi]
    have ha : (if toLower t = "start" then 1 else 0) = if i = Instruction.Start then 1 else 0 := by
      simp only [hs]
    have hb : (if toLower t = "select" then 1 else 0) =
        if i = Instruction.Select then 1 else 0 := by
      simp only [he]
    rw [ha, hb] at hk' ⊢
    clear ha hb hs he
    cases i <;> simp only [reduceCtorEq, if_true, if_false] at hk' ⊢
    case Start =>
      rw [ih _ _ hrec' (fun k => by have := hk' k; omega)]
      simp [Nat.add_assoc, Nat.add_comm 1]
    case Select =>
      have h0 : br ≠ 0 := by
        have := hk' 0
        simp [selectCount, startCount] at this
        omega
      rw [if_neg h0, ih _ _ hrec' (fun k => by have := hk' k; omega)]
      have := hk' ts.length
      simp only [List.take_length] at this
      congr 1
      · simp
      · omega
    all_goals
      rw [ih _ _ hrec' (fun k => by have := hk' k; omega)]
      simp

theorem count_step (t : String) (ts : List String) {i : Instruction}
    (hi : table (toLower t) = some i) (k : Nat) :
    startCount ((t :: ts).take (k + 1)) =
        startCount (ts.take k) + (if i = Instruction.Start then 1 else 0) ∧
      selectCount ((t :: ts).take (k + 1)) =
        selectCount (ts.take k) + (if i = Instruction.Select then 1 else 0) := by
  have hs := lower_start_iff hi
  have he := lower_select_iff hi
  rw [List.take_succ_cons, startCount_cons, selectCount_cons]
  constructor
  · simp only [hs]
  · simp only [he]

theorem compileLoop_underflow (pre : List String) :
    ∀ (e : Option String) (rest : List String) (result : List Instruction) (br : Nat),
      (∀ t ∈ pre, Recognized t) →
      (∃ k, br + startCount (pre.take k) < selectCount (pre.take k)) →
      compileLoop e (pre ++ rest) result br = (none, some CompileError.unexpectedClose) := by
  induction pre with
  | nil =>
    intro e rest result br _ hk
    obtain ⟨k, hk⟩ := hk
    simp [selectCount] at hk
  | cons t ts ih =>
    intro e rest result br hrec hk
    obtain ⟨i, hi⟩ := (recognized_iff t).1 (hrec t (List.mem_cons_self _ _))
    have hrec' : ∀ u ∈ ts, Recognized u := fun u hu => hrec u (List.mem_cons_of_mem _ hu)
    obtain ⟨k, hk⟩ := hk
    cases k with
    | zero => simp [selectCount] at hk
    | succ k =>
      obtain ⟨h1, h2⟩ := count_step t ts hi k
      rw [h1, h2] at hk
      rw [List.cons_append, compileLoop_cons, hi]
      cases i <;> simp only [reduceCtorEq, if_true, if_false] at hk ⊢
      case Start => exact ih _ _ _ _ hrec' ⟨k, by omega⟩
      case Select =>
        split_ifs with h0
        · rfl
        · exact ih _ _ _ _ hrec' ⟨k, by omega⟩
      all_goals exact ih _ _ _ _ hrec' ⟨k, by omega⟩

theorem compileLoop_invalid (pre : List String) :
    ∀ (e : Option String) (bad : String) (post : List String) (result : List Instruction)
      (br : Nat), (∀ t ∈ pre, Recognized t) → ¬ Recognized bad →
      (∀ k, selectCount (pre.take k) ≤ br + startCount (pre.take k)) →
      compileLoop e (pre ++ bad :: post) result br =
        (none, some (CompileError.invalidIdentifier bad)) := by
  induction pre with
  | nil =>
    intro e bad post result br _ hbad _
    have hn : table (toLower bad) = none := by
      unfold Recognized at hbad
      simpa using hbad
    rw [List.nil_append, compileLoop_cons, hn]
  | cons t ts ih =>
    intro e bad post result br hrec hbad hk
    obtain ⟨i, hi⟩ := (recognized_iff t).1 (hrec t (List.mem_cons_self _ _))
    have hrec' : ∀ u ∈ ts, Recognized u := fun u hu => hrec u (List.mem_cons_of_mem _ hu)
    have hk' : ∀ k, selectCount (ts.take k) + (if i = Instruction.Select then 1 else 0) ≤
        br + (startCount (ts.take k) + if i = Instruction.Start then 1 else 0) := by
      intro k
      obtain ⟨h1, h2⟩ := count_step t ts hi k
      have := hk (k + 1)
      rwa [h1, h2] at this
    rw [List.cons_append, compileLoop_cons, hi]
    cases i <;> simp only [reduceCtorEq, if_true, if_false] at hk' ⊢
    case Start => exact ih _ _ _ _ _ hrec' hbad (fun k => by have := hk' k; omega)
    case Select =>
      have h0 : br ≠ 0 := by
        have := hk' 0
        simp [selectCount, startCount] at this
        omega
      rw [if_neg h0]
      exact ih _ _ _ _ _ hrec' hbad (fun k => by have := hk' k; omega)
    all_goals exact ih _ _ _ _ _ hrec' hbad (fun k => by have := hk' k; omega)

theorem take_snoc_cases (result : List Instruction) (i : Instruction) (k : Nat) :
    (result ++ [i]).take k = result.take k ∨ (result ++ [i]).take k = result ++ [i] := by
  by_cases h : k ≤ result.length
  · left
    exact List.take_append_of_le_length h
  · right
    apply List.take_of_length_le
    simp only [List.length_append, List.length_singleton]
    omega

theorem loopInv_snoc {result : List Instruction} {br br' : Nat} (i : Instruction)
    (h : LoopInv result br)
    (hbr : br' + (if i = Instruction.Select then 1 else 0) =
      br + (if i = Instruction.Start then 1 else 0)) :
    LoopInv (result ++ [i]) br' := by
  obtain ⟨h1, h2⟩ := h
  have h3 : loopStarts (result ++ [i]) = loopEnds (result ++ [i]) + br' := by
    simp only [loopStarts, loopEnds, List.count_append, List.count_singleton] at h2 ⊢
    cases i <;> simp at hbr ⊢ <;> omega
  refine ⟨fun k => ?_, h3⟩
  rcases take_snoc_cases result i k with hk | hk
  · rw [hk]; exact h1 k
  · rw [hk]; omega

theorem compileLoop_balanced (toks : List String) :
    ∀ (e : Option String) (result : List Instruction) (br : Nat) (prog : List Instruction),
      LoopInv result br → (compileLoop e toks result br).1 = some prog → Balanced prog := by
  induction toks with
  | nil =>
    intro e result br prog hinv h
    cases e with
    | some msg => simp [compileLoop] at h
    | none =>
      simp only [compileLoop] at h
      split_ifs at h with hb
      · simp only [Option.some.injEq] at h
        subst h
        obtain ⟨h1, h2⟩ := hinv
        exact ⟨h1, by omega⟩
  | cons t ts ih =>
    intro e result br prog hinv h
    rw [compileLoop_cons] at h
    cases hi : table (toLower t) with
    | none => simp [hi] at h
    | some i =>
      rw [hi] at h
      cases i <;> simp only at h
      case Start => exact ih _ _ _ _ (loopInv_snoc _ hinv (by simp)) h
      case Select =>
        split_ifs at h with h0
        exact ih _ _ _ _ (loopInv_snoc _ hinv (by simp; omega)) h
      all_goals exact ih _ _ _ _ (loopInv_snoc _ hinv (by simp)) h

/-! ## Lemmas on the executor -/

theorem lt_length_of_getElem? {ins : List Instruction} {p : Nat} {i : Instruction}
    (h : ins[p]? = some i) : p < ins.length := by
  by_contra hn
  rw [List.getElem?_eq_none (by omega)] at h
  cases h

theorem check_next {ins : List Instruction} {s : State} (hp : s.program < ins.length)
    (hd : inMemory s.data) : check ins s = Step.next { s with program := s.program + 1 } := by
  unfold inMemory at hd
  unfold check
  rw [if_neg (by omega), if_neg (by omega)]

theorem step_up {ins : List Instruction} {s : State} (hi : ins[s.program]? = some Instruction.Up)
    (hd : inMemory s.data) :
    step ins s = Step.next { s with
      memory := setCell s.memory s.data.toNat ((cell s + 1) % 256),
      program := s.program + 1 } := by
  have hp := lt_length_of_getElem? hi
  simp only [step, hi, exec, if_pos hd]
  exact check_next hp hd

theorem step_down {ins : List Instruction} {s : State}
    (hi : ins[s.program]? = some Instruction.Down) (hd : inMemory s.data) :
    step ins s = Step.next { s with
      memory := setCell s.memory s.data.toNat ((cell s + 255) % 256),
      program := s.program + 1 } := by
  have hp := lt_length_of_getElem? hi
  simp only [step, hi, exec, if_pos hd]
  exact check_next hp hd

theorem step_start_taken {ins : List Instruction} {s : State}
    (hi : ins[s.program]? = some Instruction.Start) (hd : inMemory s.data) (hc : cell s ≠ 0) :
    step ins s = Step.next { s with stack := s.program :: s.stack, program := s.program + 1 } := by
  have hp := lt_length_of_getElem? hi
  simp only [step, hi, exec, if_pos hd, if_neg hc]
  exact check_next hp hd

theorem step_select_back {ins : List Instruction} {s : State} (top : Nat) (stack : List Nat)
    (hi : ins[s.program]? = some Instruction.Select) (hd : inMemory s.data) (hc : cell s ≠ 0)
    (hs : s.stack = top :: stack) (ht : top < ins.length) :
    step ins s = Step.next { s with program := top + 1 } := by
  obtain ⟨memory, data, program, stk, stdin, stdout⟩ := s
  simp only at hs
  subst hs
  simp only [step, hi, exec, if_pos hd, hc, ne_eq, not_false_eq_true, if_true]
  exact check_next ht hd

theorem step_select_exit {ins : List Instruction} {s : State} (top : Nat) (stack : List Nat)
    (hi : ins[s.program]? = some Instruction.Select) (hd : inMemory s.data) (hc : cell s = 0)
    (hs : s.stack = top :: stack) :
    step ins s = Step.next { s with stack := stack, program := s.program + 1 } := by
  have hp := lt_length_of_getElem? hi
  obtain ⟨memory, data, program, stk, stdin, stdout⟩ := s
  simp only at hs
  subst hs
  simp only [step, hi, exec, if_pos hd, hc, ne_eq, not_true_eq_false, if_false]
  exact check_next hp hd

theorem step_end {ins : List Instruction} {s : State} (h : ins.length ≤ s.program) :
    step ins s = Step.halt (Outcome.success s) := by
  simp only [step, List.getElem?_eq_none h]

theorem reaches_refl (ins : List Instruction) (s : State) : Reaches ins 0 s s [] := by
  constructor <;> intro fuel <;> simp

theorem reaches_step {ins : List Instruction} {s s' : State} (h : step ins s = Step.next s') :
    Reaches ins 1 s s' [s.program] := by
  constructor
  · intro fuel
    rw [Nat.add_comm, run, h]
  · intro fuel
    rw [Nat.add_comm, trace, h]
    cases hi : ins[s.program]? with
    | none => simp [step, hi] at h
    | some i => rfl

theorem reaches_trans {ins : List Instruction} {k₁ k₂ : Nat} {s s' s₂ : State}
    {l₁ l₂ : List Nat} (h₁ : Reaches ins k₁ s s' l₁) (h₂ : Reaches ins k₂ s' s₂ l₂) :
    Reaches ins (k₁ + k₂) s s₂ (l₁ ++ l₂) := by
  constructor
  · intro fuel
    rw [Nat.add_assoc, h₁.1, h₂.1]
  · intro fuel
    rw [Nat.add_assoc, h₁.2, h₂.2, List.append_assoc]

theorem setCell_self (m : Nat → Nat) (i : Nat) : setCell m i (m i) = m := by
  funext j
  unfold setCell
  split_ifs with h
  · rw [h]
  · rfl

theorem setCell_setCell (m : Nat → Nat) (i a b : Nat) :
    setCell (setCell m i a) i b = setCell m i b := by
  funext j
  unfold setCell
  split_ifs <;> rfl

theorem setCell_same (m : Nat → Nat) (i a : Nat) : setCell m i a i = a := by
  simp [setCell]

theorem reaches_ups (ins : List Instruction) (k : Nat) :
    ∀ s : State, (∀ j, j < k → ins[s.program + j]? = some Instruction.Up) → inMemory s.data →
      cell s < 256 →
      Reaches ins k s
        { s with memory := setCell s.memory s.data.toNat ((cell s + k) % 256),
                 program := s.program + k }
        (List.range' s.program k) := by
  induction k with
  | zero =>
    intro s _ _ hc
    have h : (cell s + 0) % 256 = s.memory s.data.toNat := Nat.mod_eq_of_lt hc
    rw [h, setCell_self]
    exact reaches_refl ins s
  | succ k ih =>
    intro s hi hd hc
    have h1 := reaches_step (step_up (by simpa using hi 0 (by omega)) hd)
    have h2 := ih { s with memory := setCell s.memory s.data.toNat ((cell s + 1) % 256),
                           program := s.program + 1 }
      (fun j hj => by
        have := hi (j + 1) (by omega)
        simpa [Nat.add_assoc, Nat.add_comm 1 j] using this)
      hd (by simp only [cell, setCell_same]; omega)
    have h3 := reaches_trans h1 h2
    simp only [cell, setCell_same, setCell_setCell] at h3
    have e1 : ((s.memory s.data.toNat + 1) % 256 + k) % 256 =
        (s.memory s.data.toNat + (k + 1)) % 256 := by omega
    rw [e1, Nat.add_comm 1 k, Nat.add_assoc, Nat.add_comm 1 k] at h3
    exact h3

theorem reaches_downs (ins : List Instruction) (k : Nat) :
    ∀ s : State, (∀ j, j < k → ins[s.program + j]? = some Instruction.Down) → inMemory s.data →
      cell s < 256 →
      Reaches ins k s
        { s with memory := setCell s.memory s.data.toNat ((cell s + 255 * k) % 256),
                 program := s.program + k }
        (List.range' s.program k) := by
  induction k with
  | zero =>
    intro s _ _ hc
    have h : (cell s + 255 * 0) % 256 = s.memory s.data.toNat := Nat.mod_eq_of_lt hc
    rw [h, setCell_self]
    exact reaches_refl ins s
  | succ k ih =>
    intro s hi hd hc
    have h1 := reaches_step (step_down (by simpa using hi 0 (by omega)) hd)
    have h2 := ih { s with memory := setCell s.memory s.data.toNat ((cell s + 255) % 256),
                           program := s.program + 1 }
      (fun j hj => by
        have := hi (j + 1) (by omega)
        simpa [Nat.add_assoc, Nat.add_comm 1 j] using this)
      hd (by simp only [cell, setCell_same]; omega)
    have h3 := reaches_trans h1 h2
    simp only [cell, setCell_same, setCell_setCell] at h3
    have e1 : ((s.memory s.data.toNat + 255) % 256 + 255 * k) % 256 =
        (s.memory s.data.toNat + 255 * (k + 1)) % 256 := by omega
    rw [e1, Nat.add_comm 1 k, Nat.add_assoc, Nat.add_comm 1 k] at h3
    exact h3

theorem reaches_countdown (ins : List Instruction) (b : Nat) (rest : List Nat)
    (hdown : ins[b + 1]? = some Instruction.Down) (hsel : ins[b + 2]? = some Instruction.Select)
    (hb : b < ins.length) (c : Nat) :
    ∀ s : State, s.program = b + 1 → s.stack = b :: rest → inMemory s.data → cell s = c + 1 →
      c + 1 < 256 →
      Reaches ins (2 * (c + 1)) s
        { s with memory := setCell s.memory s.data.toNat 0, program := b + 3, stack := rest }
        (loopTrace b (c + 1)) := by
  induction c with
  | zero =>
    intro s hp hs hd hc _
    obtain ⟨memory, data, program, stack, stdin, stdout⟩ := s
    simp only at hp hs
    subst hp hs
    have h1 := reaches_step (s := ⟨memory, data, b + 1, b :: rest, stdin, stdout⟩)
      (step_down hdown hd)
    have h2 := reaches_step
      (s := ⟨setCell memory data.toNat ((memory data.toNat + 255) % 256), data, b + 1 + 1,
        b :: rest, stdin, stdout⟩)
      (step_select_exit b rest hsel hd
        (by simp only [cell, setCell_same] at hc ⊢; omega) rfl)
    have h3 := reaches_trans h1 h2
    simp only [cell] at hc
    simp only [cell, hc] at h3
    exact h3
  | succ c ih =>
    intro s hp hs hd hc hlt
    obtain ⟨memory, data, program, stack, stdin, stdout⟩ := s
    simp only at hp hs
    subst hp hs
    simp only [cell] at hc
    have h1 := reaches_step (s := ⟨memory, data, b + 1, b :: rest, stdin, stdout⟩)
      (step_down hdown hd)
    have h2 := reaches_step
      (s := ⟨setCell memory data.toNat ((memory data.toNat + 255) % 256), data, b + 1 + 1,
        b :: rest, stdin, stdout⟩)
      (step_select_back b rest hsel hd
        (by simp only [cell, setCell_same]; omega) rfl hb)
    have h3 := ih ⟨setCell memory data.toNat ((memory data.toNat + 255) % 256), data, b + 1,
        b :: rest, stdin, stdout⟩ rfl rfl hd (by simp only [cell, setCell_same]; omega)
        (by omega)
    have h4 := reaches_trans (reaches_trans h1 h2) h3
    simp only [cell, setCell_setCell] at h4
    have e : 1 + 1 + 2 * (c + 1) = 2 * (c + 1 + 1) := by omega
    rw [e] at h4
    exact h4

theorem count_loopTrace (b c : Nat) : (loopTrace b c).count (b + 1) = c := by
  induction c with
  | zero => rfl
  | succ c ih =>
    simp only [loopTrace, List.count_cons, ih]
    simp

theorem count_range'_of_le (p k x : Nat) (h : p + k ≤ x) : (List.range' p k).count x = 0 := by
  rw [List.count_eq_zero]
  intro hx
  rw [List.mem_range'_1] at hx
  omega

theorem run_end {ins : List Instruction} {s : State} (h : ins.length ≤ s.program) (fuel : Nat) :
    run ins (fuel + 1) s = Outcome.success s := by
  rw [run, step_end h]

theorem trace_end {ins : List Instruction} {s : State} (h : ins.length ≤ s.program) (fuel : Nat) :
    trace ins fuel s = [] := by
  cases fuel with
  | zero => rfl
  | succ fuel => simp only [trace, List.getElem?_eq_none h]

theorem inMemory_zero : inMemory 0 := by decide

theorem compileLoop_ups (e : Option String) (n : Nat) (rest : List String) :
    ∀ (result : List Instruction) (br : Nat),
      compileLoop e (List.replicate n "up" ++ rest) result br =
        compileLoop e rest (result ++ List.replicate n Instruction.Up) br := by
  induction n with
  | zero => intro result br; simp
  | succ n ih =>
    intro result br
    rw [List.replicate_succ, List.cons_append, compileLoop_cons]
    have h : table (toLower "up") = some Instruction.Up := by decide
    rw [h]
    simp only
    rw [ih, List.append_assoc]
    rfl

theorem filterMap_table (toks : List String) (hrec : ∀ t ∈ toks, Recognized t) :
    (toks.filterMap (fun t => table (toLower t))).length = toks.length ∧
      ∀ (i : Nat) (t : String), toks[i]? = some t →
        (toks.filterMap (fun t => table (toLower t)))[i]? = table (toLower t) := by
  induction toks with
  | nil => simp
  | cons u us ih =>
    obtain ⟨x, hx⟩ := (recognized_iff u).1 (hrec u (List.mem_cons_self _ _))
    obtain ⟨ih1, ih2⟩ := ih (fun t ht => hrec t (List.mem_cons_of_mem _ ht))
    rw [List.filterMap_cons, hx]
    refine ⟨by simp [ih1], ?_⟩
    intro i t hit
    cases i with
    | zero =>
      simp only [List.getElem?_cons_zero, Option.some.injEq] at hit ⊢
      rw [← hit, hx]
    | succ i =>
      simp only [List.getElem?_cons_succ] at hit ⊢
      exact ih2 i t hit

theorem toNat_ofNat_lt (c : Nat) (h : c < 256) : (Char.ofNat c).toNat = c := by
  have hv : c.isValidChar := Or.inl (by omega)
  unfold Char.ofNat
  rw [dif_pos hv]
  simp [Char.ofNatAux, Char.toNat, UInt32.toNat]

theorem check_next_inv {ins : List Instruction} {t s' : State}
    (h : check ins t = Step.next s') :
    t.program < ins.length ∧ inMemory t.data ∧ s' = { t with program := t.program + 1 } := by
  unfold check at h
  split_ifs at h with h1 h2
  simp only [Step.next.injEq] at h
  refine ⟨by omega, ?_, h.symm⟩
  unfold inMemory
  omega

/-- How the variables `program` and `stack` move in one iteration that goes on
to a next one. -/
theorem step_next_inv {ins : List Instruction} {s s' : State}
    (h : step ins s = Step.next s') :
    ∃ i, ins[s.program]? = some i ∧ inMemory s'.data ∧ s'.program ≤ ins.length ∧
      ((i ≠ Instruction.Start ∧ i ≠ Instruction.Select ∧ s'.program = s.program + 1 ∧
          s'.stack = s.stack) ∨
        (i = Instruction.Start ∧ cell s ≠ 0 ∧ s'.program = s.program + 1 ∧
          s'.stack = s.program :: s.stack) ∨
        (i = Instruction.Start ∧ cell s = 0 ∧ ∃ j top,
          scanSelect (ins.drop s.program) s.program = some j ∧ s.stack = top :: s'.stack ∧
          s'.program = j + 1) ∨
        (i = Instruction.Select ∧ cell s ≠ 0 ∧ ∃ top rest, s.stack = top :: rest ∧
          s'.stack = s.stack ∧ s'.program = top + 1) ∨
        (i = Instruction.Select ∧ cell s = 0 ∧ ∃ top, s.stack = top :: s'.stack ∧
          s'.program = s.program + 1)) := by
  unfold step at h
  cases hi : ins[s.program]? with
  | none => simp [hi] at h
  | some i =>
    rw [hi] at h
    refine ⟨i, rfl, ?_⟩
    cases i <;> simp only [exec] at h
    case Up =>
      split_ifs at h
      obtain ⟨h1, h2, rfl⟩ := check_next_inv h
      exact ⟨h2, h1, Or.inl ⟨by simp, by simp, rfl, rfl⟩⟩
    case Down =>
      split_ifs at h
      obtain ⟨h1, h2, rfl⟩ := check_next_inv h
      exact ⟨h2, h1, Or.inl ⟨by simp, by simp, rfl, rfl⟩⟩
    case Left =>
      obtain ⟨h1, h2, rfl⟩ := check_next_inv h
      exact ⟨h2, h1, Or.inl ⟨by simp, by simp, rfl, rfl⟩⟩
    case Right =>
      obtain ⟨h1, h2, rfl⟩ := check_next_inv h
      exact ⟨h2, h1, Or.inl ⟨by simp, by simp, rfl, rfl⟩⟩
    case A =>
      split at h
      · cases h
      · obtain ⟨h1, h2, rfl⟩ := check_next_inv h
        exact ⟨h2, h1, Or.inl ⟨by simp, by simp, rfl, rfl⟩⟩
      · split_ifs at h
        obtain ⟨h1, h2, rfl⟩ := check_next_inv h
        exact ⟨h2, h1, Or.inl ⟨by simp, by simp, rfl, rfl⟩⟩
    case B =>
      split_ifs at h
      obtain ⟨h1, h2, rfl⟩ := check_next_inv h
      exact ⟨h2, h1, Or.inl ⟨by simp, by simp, rfl, rfl⟩⟩
    case Start =>
      split_ifs at h with hd hc
      · split at h
        · cases h
        · rename_i j hj
          split at h
          · cases h
          · rename_i top stack hs
            obtain ⟨h1, h2, rfl⟩ := check_next_inv h
            exact ⟨h2, h1, Or.inr (Or.inr (Or.inl ⟨rfl, hc, j, top, hj, hs, rfl⟩))⟩
      · obtain ⟨h1, h2, rfl⟩ := check_next_inv h
        exact ⟨h2, h1, Or.inr (Or.inl ⟨rfl, hc, rfl, rfl⟩)⟩
    case Select =>
      split_ifs at h with hd hc
      · split at h
        · cases h
        · rename_i top stack hs
          obtain ⟨h1, h2, rfl⟩ := check_next_inv h
          exact ⟨h2, h1, Or.inr (Or.inr (Or.inr (Or.inl ⟨rfl, hc, top, stack, hs, rfl, rfl⟩)))⟩
      · split at h
        · cases h
        · rename_i top stack hs
          obtain ⟨h1, h2, rfl⟩ := check_next_inv h
          exact ⟨h2, h1, Or.inr (Or.inr (Or.inr (Or.inr ⟨rfl, by simpa using hc, top, hs, rfl⟩)))⟩

theorem stateAfter_induct {ins : List Instruction} (P : State → Prop)
    (hstep : ∀ s s', P s → step ins s = Step.next s' → P s') :
    ∀ (k : Nat) (s s' : State), P s → stateAfter ins k s = some s' → P s' := by
  intro k
  induction k with
  | zero =>
    intro s s' hP h
    simp only [stateAfter, Option.some.injEq] at h
    rw [← h]
    exact hP
  | succ k ih =>
    intro s s' hP h
    simp only [stateAfter] at h
    cases hs : step ins s with
    | halt o => simp [hs] at h
    | next t =>
      rw [hs] at h
      exact ih t s' (hstep s t hP hs) h

theorem stateAfter_inMemory {ins : List Instruction} {input : List ReadEvent} {k : Nat}
    {s : State} (h : stateAfter ins k (initState input) = some s) : inMemory s.data := by
  refine stateAfter_induct (fun s => inMemory s.data) ?_ k _ s inMemory_zero h
  intro s s' _ hs
  obtain ⟨_, _, hd, _⟩ := step_next_inv hs
  exact hd

theorem step_right {ins : List Instruction} {s : State}
    (hi : ins[s.program]? = some Instruction.Right) (hd : inMemory (s.data + 1)) :
    step ins s = Step.next { s with data := s.data + 1, program := s.program + 1 } := by
  have hp := lt_length_of_getElem? hi
  simp only [step, hi, exec]
  exact check_next hp hd

theorem step_right_fail {ins : List Instruction} {s : State}
    (hi : ins[s.program]? = some Instruction.Right) (hd : (memLen : Int) ≤ s.data + 1) :
    step ins s = Step.halt (Outcome.failure (ExecError.dataOutOfBounds (s.data + 1))
      { s with data := s.data + 1 }) := by
  have hp := lt_length_of_getElem? hi
  simp only [step, hi, exec, check]
  rw [if_neg (by simpa using hp), if_pos (Or.inr hd)]

theorem step_left_fail {ins : List Instruction} {s : State}
    (hi : ins[s.program]? = some Instruction.Left) (hd : s.data - 1 < 0) :
    step ins s = Step.halt (Outcome.failure (ExecError.dataOutOfBounds (s.data - 1))
      { s with data := s.data - 1 }) := by
  have hp := lt_length_of_getElem? hi
  simp only [step, hi, exec, check]
  rw [if_neg (by simpa using hp), if_pos (Or.inl hd)]

theorem reaches_rights (ins : List Instruction) (k : Nat) :
    ∀ s : State, (∀ j, j < k → ins[s.program + j]? = some Instruction.Right) → 0 ≤ s.data →
      s.data + k < memLen →
      Reaches ins k s { s with data := s.data + k, program := s.program + k }
        (List.range' s.program k) := by
  induction k with
  | zero =>
    intro s _ _ _
    simp only [Nat.cast_zero, Int.add_zero, Nat.add_zero]
    exact reaches_refl ins s
  | succ k ih =>
    intro s hi h0 hlt
    have hd : inMemory (s.data + 1) := by
      unfold inMemory
      push_cast at hlt
      omega
    have h1 := reaches_step (step_right (by simpa using hi 0 (by omega)) hd)
    have h2 := ih { s with data := s.data + 1, program := s.program + 1 }
      (fun j hj => by
        have := hi (j + 1) (by omega)
        simpa [Nat.add_assoc, Nat.add_comm 1 j] using this)
      (by simp only; omega) (by simp only; push_cast at hlt; omega)
    have h3 := reaches_trans h1 h2
    simp only at h3
    have e1 : s.data + 1 + (k : Int) = s.data + ((k + 1 : Nat) : Int) := by
      push_cast
      omega
    rw [e1, Nat.add_comm 1 k, Nat.add_assoc, Nat.add_comm 1 k] at h3
    exact h3

theorem check_not_panic {ins : List Instruction} {t s' : State}
    (h : check ins t = Step.halt (Outcome.goPanic s')) : False := by
  unfold check at h
  split_ifs at h <;> simp at h

theorem step_panic_inv {ins : List Instruction} {s s' : State} (hd : inMemory s.data)
    (h : step ins s = Step.halt (Outcome.goPanic s')) :
    (ins[s.program]? = some Instruction.Start ∧ cell s = 0) ∨
      (ins[s.program]? = some Instruction.Select ∧ s.stack = []) := by
  unfold step at h
  cases hi : ins[s.program]? with
  | none => simp [hi] at h
  | some i =>
    rw [hi] at h
    cases i <;> simp only [exec, if_pos hd] at h
    case Up => exact (check_not_panic h).elim
    case Down => exact (check_not_panic h).elim
    case Left => exact (check_not_panic h).elim
    case Right => exact (check_not_panic h).elim
    case A =>
      split at h
      · cases h
      · exact (check_not_panic h).elim
      · exact (check_not_panic h).elim
    case B => exact (check_not_panic h).elim
    case Start =>
      split_ifs at h with hc
      · exact Or.inl ⟨rfl, hc⟩
      · exact (check_not_panic h).elim
    case Select =>
      right
      refine ⟨rfl, ?_⟩
      split_ifs at h with hc
      · split at h
        · assumption
        · exact (check_not_panic h).elim
      · split at h
        · assumption
        · exact (check_not_panic h).elim

theorem take_succ_of_getElem? {prog : List Instruction} {p : Nat} {i : Instruction}
    (h : prog[p]? = some i) : prog.take (p + 1) = prog.take p ++ [i] := by
  rw [List.take_succ, h]
  rfl

theorem counts_take_succ {prog : List Instruction} {p : Nat} {i : Instruction}
    (h : prog[p]? = some i) :
    loopStarts (prog.take (p + 1)) =
        loopStarts (prog.take p) + (if i = Instruction.Start then 1 else 0) ∧
      loopEnds (prog.take (p + 1)) =
        loopEnds (prog.take p) + (if i = Instruction.Select then 1 else 0) := by
  rw [take_succ_of_getElem? h]
  simp only [loopStarts, loopEnds, List.count_append, List.count_singleton]
  cases i <;> simp

theorem scanSelect_some (l : List Instruction) :
    ∀ (p j : Nat), scanSelect l p = some j →
      ∃ d, j = p + d ∧ l[d]? = some Instruction.Select ∧
        (l.take (d + 1)).count Instruction.Select = 1 := by
  induction l with
  | nil => intro p j h; simp [scanSelect] at h
  | cons i rest ih =>
    intro p j h
    simp only [scanSelect] at h
    split_ifs at h with hi
    · simp only [Option.some.injEq] at h
      exact ⟨0, by omega, by simp [hi], by simp [hi]⟩
    · obtain ⟨d, hj, hd, hcount⟩ := ih (p + 1) j h
      refine ⟨d + 1, by omega, by simpa using hd, ?_⟩
      rw [List.take_succ_cons, List.count_cons, hcount]
      simp [hi]

theorem scanSelect_of_count (l : List Instruction) :
    ∀ p, 0 < l.count Instruction.Select → ∃ j, scanSelect l p = some j := by
  induction l with
  | nil => intro p h; simp at h
  | cons i rest ih =>
    intro p h
    simp only [scanSelect]
    split_ifs with hi
    · exact ⟨p, rfl⟩
    · apply ih
      rw [List.count_cons] at h
      have : ¬ (i == Instruction.Select) = true := by simpa using hi
      simpa [this] using h

/-- The scan from a `LoopStart` at `p`: where it stops, and the counts of loop
instructions up to that index. -/
theorem scan_from_start {prog : List Instruction} {p j : Nat}
    (hp : prog[p]? = some Instruction.Start)
    (h : scanSelect (prog.drop p) p = some j) :
    p < j ∧ j < prog.length ∧ prog[j]? = some Instruction.Select ∧
      loopEnds (prog.take (j + 1)) = loopEnds (prog.take p) + 1 ∧
      loopStarts (prog.take p) + 1 ≤ loopStarts (prog.take (j + 1)) := by
  obtain ⟨d, hj, hd, hcount⟩ := scanSelect_some _ _ _ h
  have hd' : prog[p + d]? = some Instruction.Select := by
    rw [List.getElem?_drop] at hd
    exact hd
  have hd0 : d ≠ 0 := by
    rintro rfl
    rw [Nat.add_zero, hp] at hd'
    cases hd'
  have hlen := lt_length_of_getElem? hd'
  have hsplit : prog.take (j + 1) = prog.take p ++ (prog.drop p).take (d + 1) := by
    rw [hj, Nat.add_assoc, List.take_add]
  have hhead : ∃ tl, (prog.drop p).take (d + 1) = Instruction.Start :: tl := by
    have h0 : (prog.drop p)[0]? = some Instruction.Start := by
      rw [List.getElem?_drop]
      simpa using hp
    cases hdp : prog.drop p with
    | nil => rw [hdp] at h0; simp at h0
    | cons x xs =>
      rw [hdp] at h0
      simp only [List.getElem?_cons_zero, Option.some.injEq] at h0
      exact ⟨xs.take d, by rw [List.take_succ_cons, h0]⟩
  refine ⟨by omega, by omega, by rw [hj]; exact hd', ?_, ?_⟩
  · rw [hsplit]
    simp only [loopEnds, List.count_append, hcount]
  · obtain ⟨tl, htl⟩ := hhead
    rw [hsplit, htl]
    simp only [loopStarts, List.count_append, List.count_cons_self]
    omega

theorem check_pc_oob {ins : List Instruction} {t u : State} {v : Nat}
    (h : check ins t = Step.halt (Outcome.failure (ExecError.programOutOfBounds v) u)) :
    ins.length ≤ t.program := by
  unfold check at h
  split_ifs at h with h1 h2
  · exact h1
  · simp at h

theorem step_stackOk {ins : List Instruction} {s s' : State} (hok : StackOk ins s.stack)
    (h : step ins s = Step.next s') : StackOk ins s'.stack := by
  obtain ⟨i, hi, _, _, hcase⟩ := step_next_inv h
  rcases hcase with ⟨_, _, _, hs⟩ | ⟨rfl, _, _, hs⟩ | ⟨_, _, j, top, _, hs, _⟩ |
    ⟨_, _, top, rest, _, hs, _⟩ | ⟨_, _, top, hs, _⟩
  · rw [hs]; exact hok
  · rw [hs]
    intro x hx
    rcases List.mem_cons.1 hx with rfl | hx
    · exact hi
    · exact hok x hx
  · intro x hx
    exact hok x (by rw [hs]; exact List.mem_cons_of_mem _ hx)
  · rw [hs]; exact hok
  · intro x hx
    exact hok x (by rw [hs]; exact List.mem_cons_of_mem _ hx)

theorem step_not_pc_oob {ins : List Instruction} {s t : State} {v : Nat}
    (hok : StackOk ins s.stack)
    (h : step ins s = Step.halt (Outcome.failure (ExecError.programOutOfBounds v) t)) :
    False := by
  unfold step at h
  cases hi : ins[s.program]? with
  | none => simp [hi] at h
  | some i =>
    rw [hi] at h
    have hp := lt_length_of_getElem? hi
    cases i <;> simp only [exec] at h
    case Up =>
      split_ifs at h
      · have := check_pc_oob h
        simp only at this
        omega
      · cases h
    case Down =>
      split_ifs at h
      · have := check_pc_oob h
        simp only at this
        omega
      · cases h
    case Left =>
      have := check_pc_oob h
      simp only at this
      omega
    case Right =>
      have := check_pc_oob h
      simp only at this
      omega
    case A =>
      split at h
      · cases h
      · have := check_pc_oob h
        omega
      · split_ifs at h
        · have := check_pc_oob h
          simp only at this
          omega
        · cases h
    case B =>
      split_ifs at h
      · have := check_pc_oob h
        simp only at this
        omega
      · cases h
    case Start =>
      split_ifs at h with hd hc
      · split at h
        · cases h
        · rename_i j hj
          split at h
          · cases h
          · have := check_pc_oob h
            have hj' := (scan_from_start hi hj).2.1
            simp only at this
            omega
      · have := check_pc_oob h
        simp only at this
        omega
      · cases h
    case Select =>
      split_ifs at h with hd hc
      · split at h
        · cases h
        · rename_i top stack hs
          have := check_pc_oob h
          have htop := lt_length_of_getElem? (hok top (by rw [hs]; exact List.mem_cons_self _ _))
          simp only at this
          omega
      · split at h
        · cases h
        · have := check_pc_oob h
          simp only at this
          omega
      · cases h

theorem run_not_pc_oob {ins : List Instruction} (fuel : Nat) :
    ∀ (s t : State) (v : Nat), StackOk ins s.stack →
      run ins fuel s ≠ Outcome.failure (ExecError.programOutOfBounds v) t := by
  induction fuel with
  | zero => intro s t v _ h; simp [run] at h
  | succ fuel ih =>
    intro s t v hok h
    simp only [run] at h
    cases hs : step ins s with
    | halt o =>
      rw [hs] at h
      simp only at h
      rw [h] at hs
      exact step_not_pc_oob hok hs
    | next s' =>
      rw [hs] at h
      exact ih s' t v (step_stackOk hok hs) h

theorem stateAfter_stackOk {ins : List Instruction} {input : List ReadEvent} {k : Nat}
    {s : State} (h : stateAfter ins k (initState input) = some s) :
    s.program ≤ ins.length ∧ StackOk ins s.stack := by
  refine stateAfter_induct (fun s => s.program ≤ ins.length ∧ StackOk ins s.stack) ?_ k _ s
    ⟨Nat.zero_le _, fun x hx => by simp [initState] at hx⟩ h
  intro s s' hP hs
  obtain ⟨_, _, _, hp, _⟩ := step_next_inv hs
  exact ⟨hp, step_stackOk hP.2 hs⟩

theorem scan_reaches_select {prog : List Instruction} (hb : Balanced prog) {p : Nat}
    (hp : prog[p]? = some Instruction.Start) :
    ∃ j, scanSelect (prog.drop p) p = some j ∧ p < j ∧ j < prog.length ∧
      prog[j]? = some Instruction.Select := by
  have hsplit : prog.take p ++ prog.drop p = prog := List.take_append_drop p prog
  have h1 := hb.1 p
  have h2 := hb.2
  have hE : loopEnds prog = loopEnds (prog.take p) + (prog.drop p).count Instruction.Select := by
    unfold loopEnds
    rw [← List.count_append, hsplit]
  have hS : loopStarts prog =
      loopStarts (prog.take p) + (prog.drop p).count Instruction.Start := by
    unfold loopStarts
    rw [← List.count_append, hsplit]
  have hpos : 0 < (prog.drop p).count Instruction.Start := by
    rw [List.count_pos_iff]
    have h0 : (prog.drop p)[0]? = some Instruction.Start := by
      rw [List.getElem?_drop]
      simpa using hp
    exact List.getElem?_mem h0
  obtain ⟨j, hj⟩ := scanSelect_of_count (prog.drop p) p (by omega)
  obtain ⟨a, b, c, _, _⟩ := scan_from_start hp hj
  exact ⟨j, hj, a, b, c⟩

theorem balanced_of_compile {toks : List String} {e : Option String} {prog : List Instruction}
    (h : (compile toks e).1 = some prog) : Balanced prog := by
  refine compileLoop_balanced toks e [] 0 prog ⟨fun k => ?_, rfl⟩ h
  simp [loopEnds, loopStarts]

theorem check_not_success {ins : List Instruction} {t s' : State}
    (h : check ins t = Step.halt (Outcome.success s')) : False := by
  unfold check at h
  split_ifs at h <;> simp at h

theorem step_success_inv {ins : List Instruction} {s s' : State}
    (h : step ins s = Step.halt (Outcome.success s')) :
    s' = s ∧ ins.length ≤ s.program := by
  unfold step at h
  cases hi : ins[s.program]? with
  | none =>
    rw [hi] at h
    simp only [Step.halt.injEq, Outcome.success.injEq] at h
    refine ⟨h.symm, ?_⟩
    by_contra hlt
    rw [List.getElem?_eq_getElem (by omega)] at hi
    cases hi
  | some i =>
    rw [hi] at h
    exfalso
    cases i <;> simp only [exec] at h
    case Up =>
      split_ifs at h
      · exact check_not_success h
      · cases h
    case Down =>
      split_ifs at h
      · exact check_not_success h
      · cases h
    case Left => exact check_not_success h
    case Right => exact check_not_success h
    case A =>
      split at h
      · cases h
      · exact check_not_success h
      · split_ifs at h
        · exact check_not_success h
        · cases h
    case B =>
      split_ifs at h
      · exact check_not_success h
      · cases h
    case Start =>
      split_ifs at h
      · split at h
        · cases h
        · split at h
          · cases h
          · exact check_not_success h
      · exact check_not_success h
      · cases h
    case Select =>
      split_ifs at h
      · split at h
        · cases h
        · exact check_not_success h
      · split at h
        · cases h
        · exact check_not_success h
      · cases h

theorem run_success_inv {ins : List Instruction} (fuel : Nat) :
    ∀ (s₀ s : State), run ins fuel s₀ = Outcome.success s →
      ∃ k, stateAfter ins k s₀ = some s ∧ ins.length ≤ s.program := by
  induction fuel with
  | zero => intro s₀ s h; simp [run] at h
  | succ fuel ih =>
    intro s₀ s h
    simp only [run] at h
    cases hs : step ins s₀ with
    | halt o =>
      rw [hs] at h
      simp only at h
      rw [h] at hs
      obtain ⟨rfl, hlen⟩ := step_success_inv hs
      exact ⟨0, rfl, hlen⟩
    | next s₁ =>
      rw [hs] at h
      obtain ⟨k, hk, hlen⟩ := ih s₁ s h
      exact ⟨k + 1, by simp only [stateAfter, hs]; exact hk, hlen⟩

/-- The control stack is never longer than the number of loops open at
`program`. -/
theorem step_stackDepth {prog : List Instruction} {s s' : State}
    (hinv : StackDepth prog s.stack ∧
      s.stack.length + loopEnds (prog.take s.program) ≤ loopStarts (prog.take s.program))
    (h : step prog s = Step.next s') :
    StackDepth prog s'.stack ∧
      s'.stack.length + loopEnds (prog.take s'.program) ≤
        loopStarts (prog.take s'.program) := by
  obtain ⟨hsd, hlen⟩ := hinv
  obtain ⟨i, hi, _, _, hcase⟩ := step_next_inv h
  obtain ⟨cs, ce⟩ := counts_take_succ hi
  rcases hcase with ⟨h1, h2, hp, hs⟩ | ⟨rfl, _, hp, hs⟩ | ⟨rfl, _, j, top, hj, hs, hp⟩ |
    ⟨rfl, _, top, rest, hs, hs', hp⟩ | ⟨rfl, _, top, hs, hp⟩
  · rw [hp, hs, cs, ce, if_neg h1, if_neg h2]
    exact ⟨hsd, by omega⟩
  · rw [hp, hs, cs, ce]
    simp only [reduceCtorEq, if_true, if_false, List.length_cons]
    exact ⟨⟨hi, hlen, hsd⟩, by omega⟩
  · obtain ⟨_, _, _, he, hst⟩ := scan_from_start hi hj
    rw [hs] at hsd hlen
    rw [hp, he]
    simp only [List.length_cons] at hlen
    exact ⟨hsd.2.2, by omega⟩
  · rw [hs] at hsd
    obtain ⟨ht, htl, _⟩ := hsd
    obtain ⟨cs', ce'⟩ := counts_take_succ ht
    rw [hp, hs', hs, cs', ce']
    simp only [reduceCtorEq, if_true, if_false, List.length_cons]
    rw [← hs]
    exact ⟨by rw [hs]; exact ⟨ht, htl, by assumption⟩, by omega⟩
  · rw [hs] at hsd hlen
    rw [hp, cs, ce]
    simp only [reduceCtorEq, if_true, if_false, List.length_cons] at hlen ⊢
    exact ⟨hsd.2.2, by omega⟩

theorem openLoops_snoc (l : List Instruction) (i : Instruction) :
    ∀ (idx : Nat) (st : List Nat),
      openLoops (l ++ [i]) idx st = openStep (openLoops l idx st) i (idx + l.length) := by
  induction l with
  | nil => intro idx st; simp [openLoops]
  | cons x xs ih =>
    intro idx st
    have e : idx + 1 + xs.length = idx + (xs.length + 1) := by omega
    show openLoops (xs ++ [i]) (idx + 1) (openStep st x idx) =
      openStep (openLoops xs (idx + 1) (openStep st x idx)) i (idx + (xs.length + 1))
    rw [ih, e]

theorem enclosing_succ {prog : List Instruction} {p : Nat} {i : Instruction}
    (h : prog[p]? = some i) : enclosing prog (p + 1) = openStep (enclosing prog p) i p := by
  have hp := lt_length_of_getElem? h
  unfold enclosing
  rw [take_succ_of_getElem? h, openLoops_snoc, List.length_take, Nat.zero_add,
    Nat.min_eq_left (by omega)]

theorem enclosing_of_length_le {prog : List Instruction} {p : Nat} (h : prog.length ≤ p) :
    enclosing prog (p + 1) = enclosing prog p := by
  unfold enclosing
  rw [List.take_of_length_le h, List.take_of_length_le (by omega)]

/-- The innermost loop open at `p` starts at a `LoopStart` before `p`, and the
loops open there are the other loops open at `p`. -/
theorem enclosing_chain (prog : List Instruction) :
    ∀ (p m : Nat) (rest : List Nat), enclosing prog p = m :: rest →
      prog[m]? = some Instruction.Start ∧ m < p ∧ enclosing prog m = rest := by
  intro p
  induction p using Nat.strong_induction_on with
  | _ p ih =>
    intro m rest h
    cases p with
    | zero => simp [enclosing, openLoops] at h
    | succ p =>
      cases hi : prog[p]? with
      | none =>
        have hlen : prog.length ≤ p := by
          by_contra hlt
          rw [List.getElem?_eq_getElem (by omega)] at hi
          cases hi
        rw [enclosing_of_length_le hlen] at h
        obtain ⟨a, b, c⟩ := ih p (by omega) m rest h
        exact ⟨a, by omega, c⟩
      | some i =>
        rw [enclosing_succ hi] at h
        cases i <;> simp only [openStep] at h
        case Start =>
          simp only [List.cons.injEq] at h
          obtain ⟨rfl, rfl⟩ := h
          exact ⟨hi, by omega, rfl⟩
        case Select =>
          cases hp : enclosing prog p with
          | nil => rw [hp] at h; simp at h
          | cons x xs =>
            rw [hp] at h
            simp only [List.tail_cons] at h
            obtain ⟨_, hx, hxs⟩ := ih p (by omega) x xs hp
            rw [h] at hxs
            obtain ⟨a, b, c⟩ := ih x (by omega) m rest hxs
            exact ⟨a, by omega, c⟩
        all_goals
          obtain ⟨a, b, c⟩ := ih p (by omega) m rest h
          exact ⟨a, by omega, c⟩

theorem enclosing_length {prog : List Instruction}
    (hb : ∀ k, loopEnds (prog.take k) ≤ loopStarts (prog.take k)) :
    ∀ p, (enclosing prog p).length + loopEnds (prog.take p) = loopStarts (prog.take p) := by
  intro p
  induction p with
  | zero => simp [enclosing, openLoops, loopEnds, loopStarts]
  | succ p ih =>
    cases hi : prog[p]? with
    | none =>
      have hlen : prog.length ≤ p := by
        by_contra hlt
        rw [List.getElem?_eq_getElem (by omega)] at hi
        cases hi
      rw [enclosing_of_length_le hlen, List.take_of_length_le (by omega : prog.length ≤ p + 1)]
      rw [List.take_of_length_le hlen] at ih
      exact ih
    | some i =>
      obtain ⟨cs, ce⟩ := counts_take_succ hi
      have hk := hb (p + 1)
      rw [enclosing_succ hi, cs, ce]
      rw [cs, ce] at hk
      cases i <;> simp only [openStep, reduceCtorEq, if_true, if_false, List.length_cons,
        List.length_tail] at hk ⊢ <;> omega

theorem stateAfter_induct_noSkip {ins : List Instruction} (P : State → Prop)
    (hstep : ∀ s s', P s → ¬ (ins[s.program]? = some Instruction.Start ∧ cell s = 0) →
      step ins s = Step.next s' → P s') :
    ∀ (k : Nat) (s s' : State), P s → NoSkip ins k s → stateAfter ins k s = some s' →
      P s' := by
  intro k
  induction k with
  | zero =>
    intro s s' hP _ h
    simp only [stateAfter, Option.some.injEq] at h
    rw [← h]
    exact hP
  | succ k ih =>
    intro s s' hP hns h
    simp only [stateAfter] at h
    cases hs : step ins s with
    | halt o => simp [hs] at h
    | next t =>
      rw [hs] at h
      have h0 := hns 0 s (by omega) rfl
      refine ih t s' (hstep s t hP h0 hs) ?_ h
      intro j u hj hu
      exact hns (j + 1) u (by omega) (by simp only [stateAfter, hs]; exact hu)

theorem step_enclosing {prog : List Instruction} {s s' : State}
    (hinv : s.stack = enclosing prog s.program)
    (hns : ¬ (prog[s.program]? = some Instruction.Start ∧ cell s = 0))
    (h : step prog s = Step.next s') : s'.stack = enclosing prog s'.program := by
  obtain ⟨i, hi, _, _, hcase⟩ := step_next_inv h
  have hsucc := enclosing_succ hi
  rcases hcase with ⟨h1, h2, hp, hs⟩ | ⟨rfl, _, hp, hs⟩ | ⟨rfl, hc, _⟩ |
    ⟨rfl, _, top, rest, hs, hs', hp⟩ | ⟨rfl, _, top, hs, hp⟩
  · rw [hp, hs, hsucc, hinv]
    cases i <;> simp_all [openStep]
  · rw [hp, hs, hsucc, hinv]
    rfl
  · exact (hns ⟨hi, hc⟩).elim
  · rw [hinv] at hs
    obtain ⟨ht, _, hr⟩ := enclosing_chain prog _ _ _ hs
    rw [hp, hs', hinv, hs, enclosing_succ ht, hr]
    rfl
  · rw [hinv] at hs
    rw [hp, hsucc, hs]
    rfl

/-- The first `j` rounds of a countdown loop whose cell holds more than `j`:
the run is back at the loop body with the cell lowered by `j`. -/
theorem reaches_rounds (ins : List Instruction) (b : Nat) (rest : List Nat)
    (hdown : ins[b + 1]? = some Instruction.Down) (hsel : ins[b + 2]? = some Instruction.Select)
    (hb : b < ins.length) (j : Nat) :
    ∀ s : State, s.program = b + 1 → s.stack = b :: rest → inMemory s.data → j < cell s →
      cell s < 256 →
      Reaches ins (2 * j) s
        { s with memory := setCell s.memory s.data.toNat (cell s - j) } (loopTrace b j) := by
  induction j with
  | zero =>
    intro s _ _ _ _ _
    simp only [Nat.sub_zero, cell, setCell_self]
    exact reaches_refl ins s
  | succ j ih =>
    intro s hp hs hd hj hlt
    obtain ⟨memory, data, program, stack, stdin, stdout⟩ := s
    simp only at hp hs
    subst hp hs
    simp only [cell] at hj hlt
    have h1 := reaches_step (s := ⟨memory, data, b + 1, b :: rest, stdin, stdout⟩)
      (step_down hdown hd)
    have h2 := reaches_step
      (s := ⟨setCell memory data.toNat ((memory data.toNat + 255) % 256), data, b + 1 + 1,
        b :: rest, stdin, stdout⟩)
      (step_select_back b rest hsel hd (by simp only [cell, setCell_same]; omega) rfl hb)
    have h3 := ih ⟨setCell memory data.toNat ((memory data.toNat + 255) % 256), data, b + 1,
        b :: rest, stdin, stdout⟩ rfl rfl hd (by simp only [cell, setCell_same]; omega)
        (by simp only [cell, setCell_same]; omega)
    have h4 := reaches_trans (reaches_trans h1 h2) h3
    simp only [cell, setCell_setCell, setCell_same] at h4
    have e : 1 + 1 + 2 * j = 2 * (j + 1) := by omega
    have e2 : (memory data.toNat + 255) % 256 - j = memory data.toNat - (j + 1) := by omega
    rw [e, e2] at h4
    exact h4

theorem toLowerChar_toUpperChar (c : Char) (h1 : c.toNat ≠ 383) (h2 : c.toNat ≠ 305) :
    toLowerChar (toUpperChar c) = toLowerChar c := by
  by_cases hc : 97 ≤ c.toNat ∧ c.toNat ≤ 122
  · have hu : (toUpperChar c).toNat = c.toNat - 32 := by
      rw [toUpperChar, if_pos hc]
      exact toNat_ofNat_lt _ (by omega)
    have e : c.toNat - 32 + 32 = c.toNat := by omega
    have hl : toLowerChar c = c := by
      rw [toLowerChar, if_neg (by omega), if_neg (by omega), if_neg (by omega)]
    rw [hl, toLowerChar, hu, if_pos (by omega), e, Char.ofNat_toNat]
  · rw [toUpperChar, if_neg hc, if_neg h1, if_neg h2]

theorem toLowerChar_idem (c : Char) : toLowerChar (toLowerChar c) = toLowerChar c := by
  have hfix : ∀ d : Char, 97 ≤ d.toNat ∧ d.toNat ≤ 122 → toLowerChar d = d := by
    intro d hd
    rw [toLowerChar, if_neg (by omega), if_neg (by omega), if_neg (by omega)]
  by_cases h1 : 65 ≤ c.toNat ∧ c.toNat ≤ 90
  · have hl : toLowerChar c = Char.ofNat (c.toNat + 32) := by rw [toLowerChar, if_pos h1]
    rw [hl]
    exact hfix _ (by rw [toNat_ofNat_lt _ (by omega)]; omega)
  · by_cases h2 : c.toNat = 304
    · have hl : toLowerChar c = Char.ofNat 105 := by rw [toLowerChar, if_neg h1, if_pos h2]
      rw [hl]
      exact hfix _ (by decide)
    · by_cases h3 : c.toNat = 8490
      · have hl : toLowerChar c = Char.ofNat 107 := by
          rw [toLowerChar, if_neg h1, if_neg h2, if_pos h3]
        rw [hl]
        exact hfix _ (by decide)
      · have hl : toLowerChar c = c := by rw [toLowerChar, if_neg h1, if_neg h2, if_neg h3]
        rw [hl, hl]

theorem toLowerChar_of_not_asciiCased {c : Char} (h : ¬ AsciiCased c) :
    toLowerChar c = c ∧ ¬ LowerAscii c := by
  unfold AsciiCased at h
  unfold LowerAscii
  refine ⟨?_, by omega⟩
  rw [toLowerChar, if_neg (by omega), if_neg (by omega), if_neg (by omega)]

theorem toLowerChar_variant {c d : Char} (h : CaseVariantChar c d) :
    toLowerChar c = toLowerChar d ∨
      (¬ LowerAscii (toLowerChar c) ∧ ¬ LowerAscii (toLowerChar d)) := by
  rcases h with h | ⟨h, h1, h2⟩ | h | ⟨hc, hd⟩
  · left; rw [h]
  · left; rw [h, toLowerChar_toUpperChar c h1 h2]
  · left; rw [h, toLowerChar_idem]
  · right
    obtain ⟨e1, n1⟩ := toLowerChar_of_not_asciiCased hc
    obtain ⟨e2, n2⟩ := toLowerChar_of_not_asciiCased hd
    rw [e1, e2]
    exact ⟨n1, n2⟩

theorem map_toLowerChar_variant {cs ds : List Char} (h : List.Forall₂ CaseVariantChar cs ds) :
    cs.map toLowerChar = ds.map toLowerChar ∨
      ((∃ x ∈ cs.map toLowerChar, ¬ LowerAscii x) ∧ (∃ y ∈ ds.map toLowerChar, ¬ LowerAscii y)) := by
  induction h with
  | nil => left; rfl
  | cons hcd _ ih =>
    rcases ih with ih | ⟨⟨x, hx, nx⟩, ⟨y, hy, ny⟩⟩
    · rcases toLowerChar_variant hcd with hh | ⟨n1, n2⟩
      · left
        rw [List.map_cons, List.map_cons, hh, ih]
      · right
        exact ⟨⟨_, List.mem_cons_self _ _, n1⟩, ⟨_, List.mem_cons_self _ _, n2⟩⟩
    · right
      exact ⟨⟨x, List.mem_cons_of_mem _ hx, nx⟩, ⟨y, List.mem_cons_of_mem _ hy, ny⟩⟩

theorem table_eq_none_of_not_lowerAscii (l : String) (h : ∃ x ∈ l.data, ¬ LowerAscii x) :
    table l = none := by
  unfold table
  split_ifs with h1 h2 h3 h4 h5 h6 h7 h8
  all_goals first
    | rfl
    | (exfalso; subst_vars; revert h; decide)

theorem table_lower_variant {t u : String} (h : CaseVariant t u) :
    table (toLower t) = table (toLower u) := by
  rcases map_toLowerChar_variant h with hh | ⟨hx, hy⟩
  · unfold toLower
    rw [hh]
  · rw [table_eq_none_of_not_lowerAscii (toLower t) hx,
      table_eq_none_of_not_lowerAscii (toLower u) hy]

theorem compileLoop_variant {toks toks' : List String} (h : List.Forall₂ CaseVariant toks toks') :
    ∀ (e : Option String) (result : List Instruction) (br : Nat),
      ((compileLoop e toks result br).2 = none ↔ (compileLoop e toks' result br).2 = none) ∧
        (compileLoop e toks result br).1 = (compileLoop e toks' result br).1 := by
  induction h with
  | nil => intro e result br; exact ⟨Iff.rfl, rfl⟩
  | cons htu _ ih =>
    intro e result br
    rw [compileLoop_cons, compileLoop_cons, ← table_lower_variant htu]
    cases hi : table (toLower _) with
    | none => simp
    | some i =>
      cases i <;> simp only
      case Select =>
        split_ifs
        · simp
        · exact ih _ _ _
      all_goals exact ih _ _ _

/-! ## The claims -/

/-- C1: for every token sequence in which each token is, after lowercasing, one
of the eight identifiers, no initial segment has more `select` than `start`
tokens and the totals are equal, `compile` succeeds, the program has as many
instructions as there are tokens, and its i-th instruction is the image of the
i-th token under the identifier table. -/
theorem compile_nested_tokens (toks : List String)
    (hrec : ∀ t ∈ toks, Recognized t)
    (hpre : ∀ k, selectCount (toks.take k) ≤ startCount (toks.take k))
    (htot : selectCount toks = startCount toks) :
    ∃ prog : List Instruction, compile toks none = (some prog, none) ∧ prog.length = toks.length ∧
      ∀ (i : Nat) (t : String), toks[i]? = some t → prog[i]? = table (toLower t) := by
  refine ⟨toks.filterMap (fun t => table (toLower t)), ?_, filterMap_table toks hrec⟩
  unfold compile
  rw [compileLoop_nested toks [] 0 hrec (fun k => by have := hpre k; omega)]
  simp [afterLoop, htot]

theorem compile_nested_tokens_witness :
    ∃ prog : List Instruction, compile ["up", "START", "Down", "select"] none = (some prog, none) ∧
      prog.length = ["up", "START", "Down", "select"].length ∧
      ∀ (i : Nat) (t : String), ["up", "START", "Down", "select"][i]? = some t → prog[i]? = table (toLower t) :=
  compile_nested_tokens ["up", "START", "Down", "select"] (by decide)
    (by
      intro k
      rcases k with _ | _ | _ | _ | k
      · decide
      · decide
      · decide
      · decide
      · rw [List.take_of_length_le (by simp)]
        decide)
    (by decide)

/-- C2: every instruction sequence `compile` returns is balanced: no initial
segment of it has more `LoopEnd` than `LoopStart`, and the whole sequence has as
many `LoopEnd` as `LoopStart`. -/
theorem compile_returns_balanced (toks : List String) (e : Option String)
    (prog : List Instruction) (h : (compile toks e).1 = some prog) : Balanced prog := by
  refine compileLoop_balanced toks e [] 0 prog ⟨fun k => ?_, rfl⟩ h
  simp [loopEnds, loopStarts]

theorem compile_returns_balanced_witness :
    (compile ["start", "up", "select"] none).1 =
        some [Instruction.Start, Instruction.Up, Instruction.Select] ∧
      Balanced [Instruction.Start, Instruction.Up, Instruction.Select] :=
  ⟨by decide, compile_returns_balanced ["start", "up", "select"] none _ (by decide)⟩

/-- C3, as stated, fails on the tokens `select foo`: the error is the
unexpected-close error of the `select`, not the invalid-identifier error of
`foo`. -/
theorem compile_invalid_identifier_counterexample :
    Recognized "select" ∧ ¬ Recognized "foo" ∧
      compile ["select", "foo"] none = (none, some CompileError.unexpectedClose) ∧
      (compile ["select", "foo"] none).2 ≠ some (CompileError.invalidIdentifier "foo") := by
  decide

/-- C3, amended: when the token `bad` is not one of the eight identifiers
(compared after lowercasing) and every token before it is, `compile` returns no
instruction sequence; the error is the invalid-identifier error naming `bad` as
it was written when no initial segment of the tokens before `bad` has more
`select` than `start`, and the unexpected-close error otherwise. -/
theorem compile_invalid_identifier (pre : List String) (bad : String) (post : List String)
    (e : Option String) (hrec : ∀ t ∈ pre, Recognized t) (hbad : ¬ Recognized bad) :
    (compile (pre ++ bad :: post) e).1 = none ∧
      ((∀ k, selectCount (pre.take k) ≤ startCount (pre.take k)) →
        (compile (pre ++ bad :: post) e).2 = some (CompileError.invalidIdentifier bad)) ∧
      ((∃ k, startCount (pre.take k) < selectCount (pre.take k)) →
        (compile (pre ++ bad :: post) e).2 = some CompileError.unexpectedClose) := by
  have h1 : (∀ k, selectCount (pre.take k) ≤ startCount (pre.take k)) →
      compile (pre ++ bad :: post) e = (none, some (CompileError.invalidIdentifier bad)) := by
    intro h
    exact compileLoop_invalid pre e bad post [] 0 hrec hbad (fun k => by have := h k; omega)
  have h2 : (∃ k, startCount (pre.take k) < selectCount (pre.take k)) →
      compile (pre ++ bad :: post) e = (none, some CompileError.unexpectedClose) := by
    intro h
    obtain ⟨k, hk⟩ := h
    exact compileLoop_underflow pre e (bad :: post) [] 0 hrec ⟨k, by omega⟩
  refine ⟨?_, fun h => by rw [h1 h], fun h => by rw [h2 h]⟩
  by_cases h : ∀ k, selectCount (pre.take k) ≤ startCount (pre.take k)
  · rw [h1 h]
  · push_neg at h
    rw [h2 h]

theorem compile_invalid_identifier_witness :
    (compile (["up", "start"] ++ "Foo" :: ["select"]) none).1 = none ∧
      (compile (["up", "start"] ++ "Foo" :: ["select"]) none).2 =
        some (CompileError.invalidIdentifier "Foo") :=
  have h := compile_invalid_identifier ["up", "start"] "Foo" ["select"] none (by decide)
    (by decide)
  ⟨h.1, h.2.1 (by
    intro k
    rcases k with _ | _ | k
    · decide
    · decide
    · rw [List.take_of_length_le (by simp)]
      decide)⟩

/-- C4: for every sequence of recognized tokens in which some initial segment
has more `select` than `start` tokens, `compile` returns no instruction sequence
and the unexpected-close error, whatever follows. -/
theorem compile_unexpected_close (toks : List String) (e : Option String)
    (hrec : ∀ t ∈ toks, Recognized t)
    (h : ∃ k, startCount (toks.take k) < selectCount (toks.take k)) :
    compile toks e = (none, some CompileError.unexpectedClose) := by
  obtain ⟨k, hk⟩ := h
  have := compileLoop_underflow toks e [] [] 0 hrec ⟨k, by omega⟩
  rwa [List.append_nil] at this

theorem compile_unexpected_close_witness :
    compile ["select"] none = (none, some CompileError.unexpectedClose) :=
  compile_unexpected_close ["select"] none (by decide) ⟨1, by decide⟩

/-- C5: for every sequence of recognized tokens in which no initial segment has
more `select` than `start` tokens and the whole sequence has more `start` than
`select` tokens, `compile` (the scanner reporting no error) returns no
instruction sequence and the missing-close error for exactly
`startCount - selectCount` branches. -/
theorem compile_missing_close (toks : List String)
    (hrec : ∀ t ∈ toks, Recognized t)
    (hpre : ∀ k, selectCount (toks.take k) ≤ startCount (toks.take k))
    (hn : selectCount toks < startCount toks) :
    compile toks none =
      (none, some (CompileError.missingClose (startCount toks - selectCount toks))) := by
  unfold compile
  rw [compileLoop_nested toks [] 0 hrec (fun k => by have := hpre k; omega)]
  simp only [afterLoop, Nat.zero_add]
  rw [if_pos (by omega)]

theorem compile_missing_close_witness :
    compile ["start"] none = (none, some (CompileError.missingClose 1)) :=
  compile_missing_close ["start"]
    (by decide)
    (by
      intro k
      rcases k with _ | k
      · decide
      · rw [List.take_of_length_le (by simp)]
        decide)
    (by decide)

/-- C6, as stated, fails on the tokens `ſtart select` (the first letter is
U+017F, long s): putting the letters of the first token in upper case gives
`START select`, which compiles, while `ſtart select` is rejected with the
invalid-identifier error, since lowercasing leaves the long s as it is. -/
theorem compile_case_insensitive_counterexample :
    List.Forall₂ CaseChange ["\u017ftart", "select"] ["START", "select"] ∧
      compile ["\u017ftart", "select"] none =
        (none, some (CompileError.invalidIdentifier "\u017ftart")) ∧
      compile ["START", "select"] none =
        (some [Instruction.Start, Instruction.Select], none) := by
  refine ⟨List.Forall₂.cons ?_ (List.Forall₂.cons ?_ List.Forall₂.nil), by decide, by decide⟩
  · exact List.Forall₂.cons (by decide) (List.Forall₂.cons (by decide) (List.Forall₂.cons
      (by decide) (List.Forall₂.cons (by decide) (List.Forall₂.cons (by decide)
      List.Forall₂.nil))))
  · exact List.Forall₂.cons (by decide) (List.Forall₂.cons (by decide) (List.Forall₂.cons
      (by decide) (List.Forall₂.cons (by decide) (List.Forall₂.cons (by decide)
      (List.Forall₂.cons (by decide) List.Forall₂.nil)))))

/-- C6, amended: when the tokens `toks'` are the tokens `toks` with the case of
some letters changed, no long s (U+017F) and no dotless i (U+0131) being put in
upper case, `compile` succeeds on the one exactly when it succeeds on the
other, and both return the same instruction sequence. -/
theorem compile_case_insensitive (toks toks' : List String) (e : Option String)
    (h : List.Forall₂ CaseVariant toks toks') :
    ((compile toks e).2 = none ↔ (compile toks' e).2 = none) ∧
      (compile toks e).1 = (compile toks' e).1 :=
  compileLoop_variant h e [] 0

theorem compile_case_insensitive_witness :
    ((compile ["uP", "r\u0130ght"] none).2 = none ↔
        (compile ["Up", "right"] none).2 = none) ∧
      (compile ["uP", "r\u0130ght"] none).1 = (compile ["Up", "right"] none).1 ∧
      (compile ["Up", "right"] none).1 = some [Instruction.Up, Instruction.Right] :=
  have h := compile_case_insensitive ["uP", "r\u0130ght"] ["Up", "right"] none (by
    refine List.Forall₂.cons ?_ (List.Forall₂.cons ?_ List.Forall₂.nil)
    · exact List.Forall₂.cons (by decide) (List.Forall₂.cons (by decide) List.Forall₂.nil)
    · exact List.Forall₂.cons (by decide) (List.Forall₂.cons (by decide) (List.Forall₂.cons
        (by decide) (List.Forall₂.cons (by decide) (List.Forall₂.cons (by decide)
        List.Forall₂.nil)))))
  ⟨h.1, h.2, by decide⟩

/-- C7, the code at a failing input: the tokens
`up start right start start select select left down select` compile; at index 3
(a `LoopStart` on the zero cell 1, whose matching `LoopEnd` is at index 6) the
scan stops at the inner `LoopEnd` at index 5, so the next iteration starts at
index 6 and not at index 7, and the run ends in a run-time panic there. -/
theorem skip_stops_at_inner_select :
    compile ["up", "start", "right", "start", "start", "select", "select", "left", "down",
        "select"] none =
      (some [Instruction.Up, Instruction.Start, Instruction.Right, Instruction.Start,
        Instruction.Start, Instruction.Select, Instruction.Select, Instruction.Left,
        Instruction.Down, Instruction.Select], none) ∧
    ∀ (input : List ReadEvent) (fuel : Nat),
      scanSelect ([Instruction.Up, Instruction.Start, Instruction.Right, Instruction.Start,
        Instruction.Start, Instruction.Select, Instruction.Select, Instruction.Left,
        Instruction.Down, Instruction.Select].drop 3) 3 = some 5 ∧
      trace [Instruction.Up, Instruction.Start, Instruction.Right, Instruction.Start,
        Instruction.Start, Instruction.Select, Instruction.Select, Instruction.Left,
        Instruction.Down, Instruction.Select] (5 + fuel) (initState input) = [0, 1, 2, 3, 6] ∧
      ∃ s, execute [Instruction.Up, Instruction.Start, Instruction.Right, Instruction.Start,
        Instruction.Start, Instruction.Select, Instruction.Select, Instruction.Left,
        Instruction.Down, Instruction.Select] input (5 + fuel) = Outcome.goPanic s ∧
        s.program = 6 ∧ s.stack = [] :=
  ⟨by decide, fun _ fuel => ⟨rfl, by rw [Nat.add_comm]; rfl,
    ⟨_, by rw [Nat.add_comm]; rfl, rfl, rfl⟩⟩⟩

/-- C8, the code at a failing input: the tokens `start select` compile, and the
compiled program run from the initial all-zero tape takes the skip path at
index 0, which removes the top entry of the empty control stack: the first
iteration ends in a run-time panic. -/
theorem start_select_pops_empty_stack :
    compile ["start", "select"] none =
      (some [Instruction.Start, Instruction.Select], none) ∧
    ∀ (input : List ReadEvent) (fuel : Nat),
      ∃ s, execute [Instruction.Start, Instruction.Select] input (fuel + 1) =
          Outcome.goPanic s ∧ s.program = 1 ∧ s.stack = [] ∧
        trace [Instruction.Start, Instruction.Select] (fuel + 1) (initState input) = [0] :=
  ⟨by decide, fun _ _ => ⟨_, rfl, rfl, rfl, rfl⟩⟩

/-- C9: for every `n` with `1 ≤ n ≤ 255`, the tokens `n` times `up` followed by
`start down select` compile to `countdown n`, and `execute` on that program
from the initial state runs exactly `3 * n + 1` iterations and then returns
successfully, with `program` past the end, every cell zero (cell 0 included),
the data pointer at 0, nothing printed, nothing read and an empty control
stack. The loop body (`down`, at index `n + 1`) is executed exactly `n` times:
for every `j < n`, after `n + 2 + 2 * j` iterations the body has just run for
the `j + 1`-th time, the run is at the `LoopEnd` and cell 0 holds `n - 1 - j`;
the iterations start at the indices `0 .. n - 1`, `n`, then `n` times
`n + 1, n + 2`. -/
theorem countdown_loop (n : Nat) (h1 : 1 ≤ n) (h255 : n ≤ 255) (input : List ReadEvent)
    (extra : Nat) :
    compile (List.replicate n "up" ++ ["start", "down", "select"]) none =
        (some (countdown n), none) ∧
      ∃ s, execute (countdown n) input (3 * n + 2 + extra) = Outcome.success s ∧
        execute (countdown n) input (3 * n + 1) = Outcome.outOfFuel s ∧
        s.program = n + 3 ∧
        (∀ i, s.memory i = 0) ∧ s.data = 0 ∧ s.stdout = [] ∧ s.stdin = input ∧ s.stack = [] ∧
        (∀ j, j < n → ∃ t, execute (countdown n) input (n + 2 + 2 * j) = Outcome.outOfFuel t ∧
          t.program = n + 2 ∧ t.memory 0 = n - 1 - j ∧ t.data = 0 ∧ t.stack = [n] ∧
          t.stdout = []) ∧
        trace (countdown n) (3 * n + 2 + extra) (initState input) =
          List.range' 0 n ++ n :: loopTrace n n ∧
        (trace (countdown n) (3 * n + 2 + extra) (initState input)).count (n + 1) = n := by
  constructor
  · unfold compile countdown
    have hs : table (toLower "start") = some Instruction.Start := by decide
    have hd : table (toLower "down") = some Instruction.Down := by decide
    have he : table (toLower "select") = some Instruction.Select := by decide
    rw [compileLoop_ups, compileLoop_cons, hs]
    simp only
    rw [compileLoop_cons, hd]
    simp only
    rw [compileLoop_cons, he]
    simp [compileLoop]
  · obtain ⟨m, rfl⟩ : ∃ m, n = m + 1 := ⟨n - 1, by omega⟩
    generalize hins : countdown (m + 1) = ins
    have hlen : ins.length = m + 1 + 3 := by rw [← hins]; simp [countdown]
    have hup : ∀ j, j < m + 1 → ins[j]? = some Instruction.Up := by
      intro j hj
      rw [← hins, countdown, List.getElem?_append_left (by simpa using hj)]
      simp [hj]
    have hstart : ins[m + 1]? = some Instruction.Start := by
      rw [← hins, countdown, List.getElem?_append_right (by simp)]
      simp
    have hdown : ins[m + 1 + 1]? = some Instruction.Down := by
      rw [← hins, countdown, List.getElem?_append_right (by simp)]
      simp
    have hsel : ins[m + 1 + 2]? = some Instruction.Select := by
      rw [← hins, countdown, List.getElem?_append_right (by simp)]
      simp
    have hU := reaches_ups ins (m + 1) (initState input)
      (fun j hj => by simpa [initState] using hup j hj) inMemory_zero (by simp [cell, initState])
    have hc : (0 + (m + 1)) % 256 = m + 1 := by
      rw [Nat.zero_add]
      exact Nat.mod_eq_of_lt (by omega)
    simp only [initState, cell, Int.toNat_zero, hc] at hU
    have hS := @reaches_step ins
      ⟨setCell (fun _ => 0) 0 (m + 1), 0, 0 + (m + 1), [], input, []⟩ _
      (step_start_taken (by simpa using hstart) inMemory_zero (by simp [cell, setCell]))
    have hL := reaches_countdown ins (m + 1) [] hdown hsel (by omega) m
      ⟨setCell (fun _ => 0) 0 (m + 1), 0, 0 + (m + 1) + 1, [0 + (m + 1)], input, []⟩
      (by simp) (by simp) inMemory_zero (by simp [cell, setCell]) (by omega)
    have hT := reaches_trans (reaches_trans hU hS) hL
    simp only [Int.toNat_zero, setCell_setCell] at hT
    have e : 3 * (m + 1) + 2 + extra = m + 1 + 1 + 2 * (m + 1) + (extra + 1) := by omega
    have e0 : 3 * (m + 1) + 1 = m + 1 + 1 + 2 * (m + 1) + 0 := by omega
    have htrace : trace ins (3 * (m + 1) + 2 + extra) (initState input) =
        List.range' 0 (m + 1) ++ (m + 1) :: loopTrace (m + 1) (m + 1) := by
      unfold initState
      rw [e, hT.2, trace_end (by simp [hlen])]
      simp
    refine ⟨⟨setCell (fun _ => 0) 0 0, 0, m + 1 + 3, [], input, []⟩, ?_, ?_, rfl, ?_, rfl, rfl,
      rfl, rfl, ?_, htrace, ?_⟩
    · unfold execute initState
      rw [e, hT.1]
      exact run_end (by simp [hlen]) extra
    · unfold execute initState
      rw [e0, hT.1]
      rfl
    · intro i
      simp [setCell]
    · intro j hj
      have hR := reaches_rounds ins (m + 1) [] hdown hsel (by omega) j
        ⟨setCell (fun _ => 0) 0 (m + 1), 0, 0 + (m + 1) + 1, [0 + (m + 1)], input, []⟩
        (by simp) (by simp) inMemory_zero (by simp only [cell, Int.toNat_zero, setCell_same]; omega)
        (by simp only [cell, Int.toNat_zero, setCell_same]; omega)
      simp only [cell, Int.toNat_zero, setCell_same, setCell_setCell] at hR
      have hD := @reaches_step ins
        ⟨setCell (fun _ => 0) 0 (m + 1 - j), 0, 0 + (m + 1) + 1, [0 + (m + 1)], input, []⟩ _
        (step_down (by simpa using hdown) inMemory_zero)
      have hJ := reaches_trans (reaches_trans (reaches_trans hU hS) hR) hD
      have ej : m + 1 + 2 + 2 * j = m + 1 + 1 + 2 * j + 1 + 0 := by omega
      refine ⟨⟨setCell (setCell (fun _ => 0) 0 (m + 1 - j)) 0 ((m + 1 - j + 255) % 256), 0,
        0 + (m + 1) + 1 + 1, [0 + (m + 1)], input, []⟩, ?_, ?_, ?_, rfl, ?_, rfl⟩
      · unfold execute initState
        rw [ej, hJ.1]
        rfl
      · simp only
        omega
      · simp only [setCell_same]
        omega
      · simp
    · rw [htrace]
      simp only [List.count_append, List.count_cons, count_loopTrace]
      rw [count_range'_of_le _ _ _ (by omega)]
      simp

theorem countdown_loop_witness :
    1 ≤ 1 ∧ 1 ≤ 255 ∧
      (compile (List.replicate 1 "up" ++ ["start", "down", "select"]) none =
        (some (countdown 1), none) ∧
      ∃ s, execute (countdown 1) [] (3 * 1 + 2 + 0) = Outcome.success s ∧
        execute (countdown 1) [] (3 * 1 + 1) = Outcome.outOfFuel s ∧
        s.program = 1 + 3 ∧
        (∀ i, s.memory i = 0) ∧ s.data = 0 ∧ s.stdout = [] ∧ s.stdin = [] ∧ s.stack = [] ∧
        (∀ j, j < 1 → ∃ t, execute (countdown 1) [] (1 + 2 + 2 * j) = Outcome.outOfFuel t ∧
          t.program = 1 + 2 ∧ t.memory 0 = 1 - 1 - j ∧ t.data = 0 ∧ t.stack = [1] ∧
          t.stdout = []) ∧
        trace (countdown 1) (3 * 1 + 2 + 0) (initState []) =
          List.range' 0 1 ++ 1 :: loopTrace 1 1 ∧
        (trace (countdown 1) (3 * 1 + 2 + 0) (initState [])).count (1 + 1) = 1) :=
  ⟨by decide, by decide, countdown_loop 1 (by decide) (by decide) [] 0⟩

/-- C10: cell arithmetic wraps modulo 256 and is never an error: from the
initial state, `n` `IncrementCell` instructions run to a successful end with
cell 0 equal to `n mod 256`, and `n` `DecrementCell` instructions with cell 0
equal to `(-n) mod 256`. -/
theorem cell_arithmetic_wraps (n : Nat) (input : List ReadEvent) (extra : Nat) :
    (∃ s, execute (List.replicate n Instruction.Up) input (n + 1 + extra) = Outcome.success s ∧
        s.memory 0 = n % 256) ∧
      (∃ s, execute (List.replicate n Instruction.Down) input (n + 1 + extra) =
          Outcome.success s ∧ (s.memory 0 : Int) = (-(n : Int)) % 256) := by
  constructor
  · have h := reaches_ups (List.replicate n Instruction.Up) n (initState input)
      (fun j hj => by simp [initState, hj]) inMemory_zero (by simp [cell, initState])
    refine ⟨{ initState input with
      memory := setCell (fun _ => 0) 0 ((0 + n) % 256), program := 0 + n }, ?_, ?_⟩
    · unfold execute
      rw [Nat.add_assoc, h.1, Nat.add_comm 1 extra]
      exact run_end (by simp [initState]) extra
    · simp [setCell]
  · have h := reaches_downs (List.replicate n Instruction.Down) n (initState input)
      (fun j hj => by simp [initState, hj]) inMemory_zero (by simp [cell, initState])
    refine ⟨{ initState input with
      memory := setCell (fun _ => 0) 0 ((0 + 255 * n) % 256), program := 0 + n }, ?_, ?_⟩
    · unfold execute
      rw [Nat.add_assoc, h.1, Nat.add_comm 1 extra]
      exact run_end (by simp [initState]) extra
    · simp only [setCell, if_true, Nat.zero_add]
      omega

/-- C11: for every program whose first instruction is `MoveLeft`, `execute` from
the initial state fails in its first iteration with the
data-pointer-out-of-bounds error reporting -1; no other iteration starts,
nothing is printed, no input is consumed and every tape cell is still zero. -/
theorem left_first_fails (rest : List Instruction) (input : List ReadEvent) (fuel : Nat) :
    ∃ s, execute (Instruction.Left :: rest) input (fuel + 1) =
        Outcome.failure (ExecError.dataOutOfBounds (-1)) s ∧
      s.stdout = [] ∧ s.stdin = input ∧ (∀ i, s.memory i = 0) ∧ s.stack = [] ∧
      trace (Instruction.Left :: rest) (fuel + 1) (initState input) = [0] := by
  refine ⟨{ initState input with data := -1 }, ?_, rfl, rfl, fun _ => rfl, rfl, ?_⟩
  · simp [execute, run, step, exec, check, initState]
  · simp [trace, step, exec, check, initState]

/-- C12, as stated, fails for the byte 200: the program `a b` prints the rune
U+00C8, which reaches standard output as the two bytes 195 136 and not as the
single byte 200. -/
theorem echo_counterexample :
    ∃ s, execute [Instruction.A, Instruction.B] [ReadEvent.byte 200] 3 = Outcome.success s ∧
      s.stdin = [] ∧ s.stdout = [Char.ofNat 200] ∧ outputBytes s.stdout = [195, 136] ∧
      outputBytes s.stdout ≠ [200] :=
  ⟨_, rfl, rfl, rfl, by decide, by decide⟩

/-- C12, amended: for every byte value `c` and every input stream whose first
byte is `c`, the program `a b` run from the initial state succeeds, consumes
exactly that byte and prints exactly the one character with code point `c`:
the single byte `c` when `c < 128`, the two bytes `192 + c / 64` and
`128 + c % 64` of its UTF-8 encoding when `c ≥ 128`. -/
theorem echo (c : Nat) (hc : c < 256) (rest : List ReadEvent) (extra : Nat) :
    ∃ s, execute [Instruction.A, Instruction.B] (ReadEvent.byte c :: rest) (3 + extra) =
        Outcome.success s ∧
      s.stdin = rest ∧ s.memory 0 = c ∧ s.stdout = [Char.ofNat c] ∧
      (c < 128 → outputBytes s.stdout = [c]) ∧
      (128 ≤ c → outputBytes s.stdout = [192 + c / 64, 128 + c % 64]) := by
  have hm : c % 256 = c := Nat.mod_eq_of_lt hc
  have hrun : execute [Instruction.A, Instruction.B] (ReadEvent.byte c :: rest) (3 + extra) =
      Outcome.success
        ⟨setCell (fun _ => 0) 0 (c % 256), 0, 2, [], rest, [Char.ofNat (c % 256)]⟩ := by
    rw [Nat.add_comm]
    rfl
  rw [hm] at hrun
  refine ⟨_, hrun, rfl, ?_, rfl, ?_, ?_⟩
  · simp [setCell]
  · intro h
    simp [outputBytes, utf8Bytes, toNat_ofNat_lt c hc, h]
  · intro h
    have h1 : ¬ c < 128 := by omega
    have h2 : c < 2048 := by omega
    simp [outputBytes, utf8Bytes, toNat_ofNat_lt c hc, h1, h2]

theorem echo_witness :
    ∃ s, execute [Instruction.A, Instruction.B] (ReadEvent.byte 65 :: []) (3 + 0) =
        Outcome.success s ∧
      s.stdin = [] ∧ s.memory 0 = 65 ∧ s.stdout = [Char.ofNat 65] ∧
      (65 < 128 → outputBytes s.stdout = [65]) ∧
      (128 ≤ 65 → outputBytes s.stdout = [192 + 65 / 64, 128 + 65 % 64]) :=
  echo 65 (by decide) [] 0

/-- C13: end of input is a no-op: when an iteration of a run from the initial
state executes `ReadByte` with the input exhausted, the run goes on with the
next instruction and every variable but `program` is as before; and the
program `a b` on the empty input succeeds and prints the character of the
initial value 0 of cell 0 (a null byte). -/
theorem read_at_end_of_input (ins : List Instruction) (input : List ReadEvent) (k : Nat)
    (s : State) (h : stateAfter ins k (initState input) = some s)
    (hi : ins[s.program]? = some Instruction.A) (he : s.stdin = []) :
    step ins s = Step.next { s with program := s.program + 1 } ∧
      ∀ extra, ∃ s', execute [Instruction.A, Instruction.B] [] (3 + extra) =
          Outcome.success s' ∧
        s'.stdout = [Char.ofNat 0] ∧ outputBytes s'.stdout = [0] ∧ (∀ i, s'.memory i = 0) ∧
        s'.data = 0 := by
  constructor
  · have hd := stateAfter_inMemory h
    have hp := lt_length_of_getElem? hi
    clear h
    obtain ⟨memory, data, program, stack, stdin, stdout⟩ := s
    simp only at he
    subst he
    simp only [step, hi, exec]
    exact check_next hp hd
  · intro extra
    refine ⟨⟨fun _ => 0, 0, 2, [], [], [Char.ofNat 0]⟩, ?_, rfl, by decide, fun _ => rfl, rfl⟩
    rw [Nat.add_comm]
    rfl

theorem read_at_end_of_input_witness :
    step [Instruction.A, Instruction.B] (initState []) =
        Step.next { initState [] with program := (initState []).program + 1 } ∧
      ∀ extra, ∃ s', execute [Instruction.A, Instruction.B] [] (3 + extra) =
          Outcome.success s' ∧
        s'.stdout = [Char.ofNat 0] ∧ outputBytes s'.stdout = [0] ∧ (∀ i, s'.memory i = 0) ∧
        s'.data = 0 :=
  read_at_end_of_input [Instruction.A, Instruction.B] [] 0 (initState []) rfl rfl rfl

/-- C14: for every instruction sequence and every input, at the beginning of
every iteration of a run from the initial state the data pointer lies in
`[0, 30000)`; an iteration that goes on leaves it in that range; a `MoveLeft`
or `MoveRight` that takes it out of the range ends the run in that same
iteration with the data-pointer-out-of-bounds error; and the only run-time
panics are those of the loop instructions (the scan and the control stack),
never an index into the tape. -/
theorem data_pointer_invariant (ins : List Instruction) (input : List ReadEvent) (k : Nat)
    (s : State) (h : stateAfter ins k (initState input) = some s) :
    inMemory s.data ∧
      (∀ s', step ins s = Step.next s' → inMemory s'.data) ∧
      (ins[s.program]? = some Instruction.Left → s.data = 0 →
        step ins s = Step.halt (Outcome.failure (ExecError.dataOutOfBounds (-1))
          { s with data := -1 })) ∧
      (ins[s.program]? = some Instruction.Right → s.data = 29999 →
        step ins s = Step.halt (Outcome.failure (ExecError.dataOutOfBounds 30000)
          { s with data := 30000 })) ∧
      (∀ s', step ins s = Step.halt (Outcome.goPanic s') →
        (ins[s.program]? = some Instruction.Start ∧ cell s = 0) ∨
          (ins[s.program]? = some Instruction.Select ∧ s.stack = [])) := by
  have hd := stateAfter_inMemory h
  refine ⟨hd, ?_, ?_, ?_, fun s' hs => step_panic_inv hd hs⟩
  · intro s' hs
    obtain ⟨_, _, hd', _⟩ := step_next_inv hs
    exact hd'
  · intro hi h0
    have := step_left_fail hi (by omega)
    rw [h0] at this
    exact this
  · intro hi h0
    have := step_right_fail hi (by rw [h0]; decide)
    rw [h0] at this
    exact this

theorem data_pointer_invariant_witness :
    inMemory (1 : Int) ∧
      stateAfter [Instruction.Right, Instruction.Left, Instruction.Left] 1 (initState []) =
        some ⟨fun _ => 0, 1, 1, [], [], []⟩ :=
  ⟨(data_pointer_invariant [Instruction.Right, Instruction.Left, Instruction.Left] [] 1
      ⟨fun _ => 0, 1, 1, [], [], []⟩ rfl).1, rfl⟩

/-- C17: the tape has 30000 cells and the data pointer does not wrap: the
program of `n` `MoveRight` instructions run from the initial state succeeds
exactly when `n ≤ 29999`, then ending with the data pointer at `n` and the tape
all zero; for `n ≥ 30000` it fails in iteration 30000 with the
data-pointer-out-of-bounds error reporting 30000. -/
theorem move_right_bound (n : Nat) (input : List ReadEvent) :
    (n ≤ 29999 → ∀ extra, ∃ s,
        execute (List.replicate n Instruction.Right) input (n + 1 + extra) = Outcome.success s ∧
        s.data = n ∧ ∀ i, s.memory i = 0) ∧
      (30000 ≤ n → ∀ extra, ∃ s,
        execute (List.replicate n Instruction.Right) input (30000 + extra) =
          Outcome.failure (ExecError.dataOutOfBounds 30000) s) ∧
      ((∃ fuel s, execute (List.replicate n Instruction.Right) input fuel = Outcome.success s) ↔
        n ≤ 29999) := by
  have hseg : ∀ k, k ≤ n → k ≤ 29999 →
      Reaches (List.replicate n Instruction.Right) k (initState input)
        { initState input with data := (0 : Int) + k, program := 0 + k } (List.range' 0 k) := by
    intro k hk hk'
    exact reaches_rights (List.replicate n Instruction.Right) k (initState input)
      (fun j hj => by
        have hj' : j < n := by omega
        simp [initState, hj'])
      (by simp [initState])
      (by simp only [initState, memLen]; push_cast; omega)
  have hok : n ≤ 29999 → ∀ extra, ∃ s,
      execute (List.replicate n Instruction.Right) input (n + 1 + extra) = Outcome.success s ∧
        s.data = n ∧ ∀ i, s.memory i = 0 := by
    intro hn extra
    refine ⟨{ initState input with data := (0 : Int) + n, program := 0 + n }, ?_, ?_, ?_⟩
    · unfold execute
      rw [Nat.add_assoc, (hseg n (Nat.le_refl n) hn).1, Nat.add_comm 1 extra]
      exact run_end (by simp) extra
    · simp
    · intro i
      rfl
  have hfail : 30000 ≤ n → ∀ extra, ∃ s,
      execute (List.replicate n Instruction.Right) input (30000 + extra) =
        Outcome.failure (ExecError.dataOutOfBounds 30000) s := by
    intro hn extra
    have e : 30000 + extra = 29999 + (extra + 1) := by omega
    have h29 : 29999 < n := by omega
    have hs := @step_right_fail (List.replicate n Instruction.Right)
      { initState input with data := (0 : Int) + (29999 : Nat), program := 0 + 29999 }
      (by simp [h29]) (by simp only [memLen]; decide)
    refine ⟨⟨fun _ => 0, 30000, 29999, [], input, []⟩, ?_⟩
    unfold execute
    rw [e, (hseg 29999 (by omega) (Nat.le_refl _)).1, run, hs]
    simp [initState]
  refine ⟨hok, hfail, ?_, fun hn => ⟨n + 1 + 0, (hok hn 0).imp fun s hs => hs.1⟩⟩
  rintro ⟨fuel, s, hs⟩
  by_contra hn
  by_cases hf : fuel ≤ 29999
  · have h0 := (hseg fuel (by omega) hf).1 0
    unfold execute at hs
    rw [Nat.add_zero] at h0
    rw [h0, run] at hs
    cases hs
  · obtain ⟨extra, rfl⟩ : ∃ extra, fuel = 30000 + extra := ⟨fuel - 30000, by omega⟩
    obtain ⟨t, ht⟩ := hfail (by omega) extra
    rw [ht] at hs
    cases hs

/-- C18: for every program `compile` returns and every input, the forward scan
from any `LoopStart` of the program stops at a `LoopEnd` inside the program; at
the beginning of every iteration of a run from the initial state `program` is
at most the program length and every entry of the control stack is the index
of a `LoopStart`; no iteration ends with the program-counter-out-of-bounds
error, and `execute` never returns it. -/
theorem program_counter_in_bounds (toks : List String) (e : Option String)
    (prog : List Instruction) (hc : (compile toks e).1 = some prog) (input : List ReadEvent) :
    (∀ p, prog[p]? = some Instruction.Start →
        ∃ j, scanSelect (prog.drop p) p = some j ∧ p < j ∧ j < prog.length ∧
          prog[j]? = some Instruction.Select) ∧
      (∀ k s, stateAfter prog k (initState input) = some s →
        s.program ≤ prog.length ∧ (∀ x ∈ s.stack, prog[x]? = some Instruction.Start) ∧
        ∀ v t, step prog s ≠
          Step.halt (Outcome.failure (ExecError.programOutOfBounds v) t)) ∧
      (∀ fuel v t, execute prog input fuel ≠
        Outcome.failure (ExecError.programOutOfBounds v) t) := by
  refine ⟨fun p hp => scan_reaches_select (balanced_of_compile hc) hp, ?_, ?_⟩
  · intro k s hs
    obtain ⟨h1, h2⟩ := stateAfter_stackOk hs
    exact ⟨h1, h2, fun v t h => step_not_pc_oob h2 h⟩
  · intro fuel v t
    exact run_not_pc_oob fuel (initState input) t v (fun x hx => by simp [initState] at hx)

theorem program_counter_in_bounds_witness :
    (compile ["up", "start", "down", "select"] none).1 =
        some [Instruction.Up, Instruction.Start, Instruction.Down, Instruction.Select] ∧
      scanSelect ([Instruction.Up, Instruction.Start, Instruction.Down,
        Instruction.Select].drop 1) 1 = some 3 ∧
      ∀ fuel v t,
        execute [Instruction.Up, Instruction.Start, Instruction.Down, Instruction.Select] []
          fuel ≠ Outcome.failure (ExecError.programOutOfBounds v) t :=
  ⟨by decide, by decide,
    (program_counter_in_bounds ["up", "start", "down", "select"] none
      [Instruction.Up, Instruction.Start, Instruction.Down, Instruction.Select]
      (by decide) []).2.2⟩

/-- C15: for every program `compile` returns and every input, the control
stack is empty when `execute` starts, and when `execute` ends successfully the
control stack is empty again. -/
theorem stack_empty_at_end (toks : List String) (e : Option String) (prog : List Instruction)
    (hc : (compile toks e).1 = some prog) (input : List ReadEvent) (fuel : Nat) (s : State)
    (h : execute prog input fuel = Outcome.success s) :
    (initState input).stack = [] ∧ s.stack = [] := by
  refine ⟨rfl, ?_⟩
  obtain ⟨k, hk, hlen⟩ := run_success_inv fuel (initState input) s h
  have hinv := stateAfter_induct
    (fun s => StackDepth prog s.stack ∧
      s.stack.length + loopEnds (prog.take s.program) ≤ loopStarts (prog.take s.program))
    (fun s s' hP hs => step_stackDepth hP hs) k (initState input) s
    ⟨trivial, by simp [initState, loopEnds, loopStarts]⟩ hk
  have hb := (balanced_of_compile hc).2
  have hl := hinv.2
  rw [List.take_of_length_le hlen] at hl
  exact List.length_eq_zero.1 (by omega)

theorem stack_empty_at_end_witness :
    ∃ s, execute [Instruction.Up, Instruction.Start, Instruction.Down, Instruction.Select] []
        5 = Outcome.success s ∧ s.stack = [] :=
  ⟨_, rfl,
    (stack_empty_at_end ["up", "start", "down", "select"] none
      [Instruction.Up, Instruction.Start, Instruction.Down, Instruction.Select] (by decide) [] 5
      _ rfl).2⟩

/-- C16: in a run of a program `compile` returns in which no `LoopStart` has so
far been executed on a zero cell, the control stack holds exactly the indices
of the `LoopStart` instructions enclosing the current instruction (the list
has the innermost, the top of the stack, first). So when the current
instruction is a `LoopEnd`, the top entry `m` is the index of the matching
`LoopStart`; with a nonzero current cell the next iteration is at `m + 1` with
the stack unchanged, and with a zero cell that entry is popped and the next
iteration is at the following index. -/
theorem stack_holds_enclosing_loops (toks : List String) (e : Option String)
    (prog : List Instruction) (hc : (compile toks e).1 = some prog) (input : List ReadEvent)
    (k : Nat) (s : State) (h : stateAfter prog k (initState input) = some s)
    (hns : NoSkip prog k (initState input)) :
    s.stack = enclosing prog s.program ∧
      (prog[s.program]? = some Instruction.Select →
        ∃ m rest, s.stack = m :: rest ∧ prog[m]? = some Instruction.Start ∧ m < s.program ∧
          enclosing prog m = rest ∧
          (cell s ≠ 0 → step prog s = Step.next { s with program := m + 1 }) ∧
          (cell s = 0 →
            step prog s = Step.next { s with stack := rest, program := s.program + 1 })) := by
  have hinv : s.stack = enclosing prog s.program :=
    stateAfter_induct_noSkip (fun s => s.stack = enclosing prog s.program)
      (fun s s' hP hn hs => step_enclosing hP hn hs) k (initState input) s rfl hns h
  refine ⟨hinv, fun hi => ?_⟩
  have hb := (balanced_of_compile hc).1
  have hd := stateAfter_inMemory h
  have hp := lt_length_of_getElem? hi
  have hl := enclosing_length hb s.program
  have hk := hb (s.program + 1)
  obtain ⟨cs, ce⟩ := counts_take_succ hi
  rw [cs, ce] at hk
  simp only [reduceCtorEq, if_true, if_false] at hk
  cases hst : enclosing prog s.program with
  | nil =>
    rw [hst] at hl
    simp only [List.length_nil] at hl
    omega
  | cons m rest =>
    obtain ⟨hm, hlt, hr⟩ := enclosing_chain prog _ _ _ hst
    have hs : s.stack = m :: rest := by rw [hinv, hst]
    exact ⟨m, rest, hs, hm, hlt, hr,
      fun hcell => step_select_back m rest hi hd hcell hs (by omega),
      fun hcell => step_select_exit m rest hi hd hcell hs⟩

theorem stack_holds_enclosing_loops_witness :
    NoSkip [Instruction.Up, Instruction.Start, Instruction.Down, Instruction.Select] 3
        (initState []) ∧
      ∃ s, stateAfter [Instruction.Up, Instruction.Start, Instruction.Down, Instruction.Select]
          3 (initState []) = some s ∧
        s.program = 3 ∧ s.stack = [1] ∧
        s.stack = enclosing
          [Instruction.Up, Instruction.Start, Instruction.Down, Instruction.Select] s.program :=
  have hns : NoSkip [Instruction.Up, Instruction.Start, Instruction.Down, Instruction.Select] 3
      (initState []) := by
    intro j s hj hs
    rcases j with _ | _ | _ | j
    · cases hs
      exact fun hh => absurd hh.1 (by decide)
    · cases hs
      exact fun hh => absurd hh.2 (by decide)
    · cases hs
      exact fun hh => absurd hh.1 (by decide)
    · omega
  ⟨hns, _, rfl, rfl, rfl,
    (stack_holds_enclosing_loops ["up", "start", "down", "select"] none
      [Instruction.Up, Instruction.Start, Instruction.Down, Instruction.Select] (by decide) []
      3 _ rfl hns).1⟩

end Konamicode
